import Mathlib

/-!
Verification development for the phodav WebDAV server library and the
spice-webdavd byte-stream multiplexer.

The definitions below are a shallow embedding of the C sources:

* `src/libphodav/phodav-server.c` — path registry, lock manager,
  `If:` precondition handling, PROPFIND, MOVE/COPY, UNLOCK;
* `src/libphodav/phodav-if.c` — the `If:` header evaluator;
* `src/libphodav/phodav-lock.c` — lock records and submitted-token lists;
* `src/libphodav/phodav-utils.c` — `depth_from_string`,
  `xml_node_get_xattr_name`, `remove_trailing`;
* `src/libphodav/phodav-method-mkcol.c` — MKCOL;
* `src/spice/spice-webdavd.c` — multiplexer framing.

GLib strings are modelled as Lean `String` (manipulated through their
character lists), `GHashTable` registries as association lists with unique
keys, and `GList` as `List`.  Filesystem (GIO) primitives, which are
external to this repository, are modelled from their documented contracts;
such definitions are explicitly marked in their doc comments.
-/

namespace Phodav

/-! ## Character-list string helpers

The C code manipulates NUL-terminated `gchar *` buffers.  We mirror the
few primitives it uses on `List Char`, and wrap them into `String`
operations at the interface.
-/

/-- Drop trailing occurrences of `c` (the loop of `remove_trailing`,
`phodav-server.c:131` / `phodav-utils.c:21`, which rewinds `len` while the
last character equals `c` and then truncates). -/
def dropTrailingChar (c : Char) (l : List Char) : List Char :=
  (l.reverse.dropWhile (fun x => x = c)).reverse

/-- C `remove_trailing (str, c)`: remove every trailing `c` from `str`. -/
def remove_trailing (s : String) (c : Char) : String :=
  ⟨dropTrailingChar c s.data⟩

/-- Split a character list at every `'/'`, keeping empty pieces, mirroring
`g_strsplit (path, "/", -1)`: `"a/b" ↦ [[a],[b]]`, `"/a" ↦ [[],[a]]`,
`"" ↦ [[]]` (g_strsplit returns an empty vector for `""`; the difference
disappears once empty pieces are discarded, which every caller does). -/
def splitOnSlash : List Char → List (List Char)
  | [] => [[]]
  | c :: rest =>
    match splitOnSlash rest, decide (c = '/') with
    | r, true => [] :: r
    | [], false => [[c]]
    | p :: ps, false => (c :: p) :: ps

/-- The non-empty `/`-separated segments of a path: `g_strsplit` followed
by the `if (!*pathv[i]) continue;` filter of `foreach_parent_path`
(`phodav-server.c:1062`–`1067`). -/
def splitSegs (path : String) : List String :=
  ((splitOnSlash path.data).filter (fun l => l ≠ [])).map (fun l => ⟨l⟩)

/-- C `g_build_path ("/", a, b)` as used by `foreach_parent_path`
(`phodav-server.c:1069`): `a` is `"/"` on the first iteration and a
previously built `"/x/…"` (no trailing slash) afterwards, and `b` is a
non-empty slash-free segment, so the join collapses the separator exactly
when `a` is the root. -/
def buildPath (a b : String) : String :=
  if a = "/" then "/" ++ b else a ++ "/" ++ b

/-! ## Lock data model (`phodav-server.c:159`–`233`, `phodav-lock.c`) -/

/-- `LockScopeType` (`phodav-server.c:159`). -/
inductive LockScopeType
  | none
  | exclusive
  | shared
deriving DecidableEq, Repr

/-- `LockType` (`phodav-server.c:165`). -/
inductive LockType
  | none
  | write
deriving DecidableEq, Repr

/-- `DepthType` (`phodav-server.c:170`). -/
inductive DepthType
  | zero
  | one
  | infinity
deriving DecidableEq, Repr

/-- `DAVLock` (`phodav-server.c:176`): the owning `Path` is represented by
the registry key the lock is stored under, so the record itself carries the
remaining fields (the opaque `owner` XML fragment is kept as a string). -/
structure DAVLock where
  token   : String
  scope   : LockScopeType
  type    : LockType
  depth   : DepthType
  owner   : Option String
  timeout : Nat
deriving DecidableEq, Repr

/-- The path registry `self->paths` (`GHashTable` keyed by the normalized
path, `phodav-server.c:84`–`157`): an association list from path key to
the `Path.locks` list.  Keys are unique; the `refs` field is not modelled
because the table itself holds a reference, so entries are never removed
while the server lives. -/
abbrev Registry := List (String × List DAVLock)

/-- `g_hash_table_lookup` on the path registry. -/
def regLookup (reg : Registry) (k : String) : Option (List DAVLock) :=
  match reg.find? (fun e => e.1 = k) with
  | Option.none => Option.none
  | Option.some e => Option.some e.2

/-- Replace the lock list stored under key `k` (other entries unchanged). -/
def regModify (reg : Registry) (k : String) (f : List DAVLock → List DAVLock) : Registry :=
  reg.map (fun e => if e.1 = k then (e.1, f e.2) else e)

/-- C `get_path` (`phodav-server.c:141`): normalize the path by removing
trailing slashes, then return the existing entry's key or insert a fresh
empty one.  Returns the key together with the (possibly extended)
registry. -/
def get_path (reg : Registry) (path : String) : String × Registry :=
  let k := remove_trailing path '/'
  match regLookup reg k with
  | Option.some _ => (k, reg)
  | Option.none => (k, reg ++ [(k, [])])

/-! ## Ancestor walk (`foreach_parent_path`, `phodav-server.c:1053`) -/

/-- The body of `foreach_parent_path`'s loop over `pathv`, threading the
partially built path `part` and a callback state `s`.  Empty segments are
skipped; for each non-empty segment the key `buildPath part seg` is looked
up, and when present the callback runs; a `false` callback return aborts
the walk (`goto end`, returning `FALSE`). -/
def fppGo (reg : Registry) (cb : String → List DAVLock → σ → Bool × σ)
    (part : String) (segs : List String) (s : σ) : Bool × σ :=
  match segs with
  | [] => (true, s)
  | seg :: rest =>
    if seg = "" then fppGo reg cb part rest s
    else
      let p := buildPath part seg
      match regLookup reg p with
      | Option.none => fppGo reg cb p rest s
      | Option.some locks =>
        match cb p locks s with
        | (true, s') => fppGo reg cb p rest s'
        | (false, s') => (false, s')

/-- C `foreach_parent_path (self, path, cb, data)`: split `path` on `/`,
walk the partial paths from the root down, return whether the walk
completed (plus the final callback state). -/
def foreach_parent_path (reg : Registry) (path : String)
    (cb : String → List DAVLock → σ → Bool × σ) (s : σ) : Bool × σ :=
  fppGo reg cb "/" ((splitOnSlash path.data).map (fun l => ⟨l⟩)) s

/-- The sequence of registry keys the walk looks up, defined by the same
segment recursion as `fppGo` (lookup happens for every non-empty segment,
whether or not the key is present). -/
def consultedFrom (part : String) : List String → List String
  | [] => []
  | seg :: rest =>
    if seg = "" then consultedFrom part rest
    else
      let p := buildPath part seg
      p :: consultedFrom p rest

/-- All keys consulted by `foreach_parent_path reg path`: the partial
paths `"/a", "/a/b", …` of `path`'s non-empty segments. -/
def consultedKeys (path : String) : List String :=
  consultedFrom "/" ((splitOnSlash path.data).map (fun l => (⟨l⟩ : String)))

/-! ## Lock compatibility and attachment
(`check_lock` / `try_add_lock`, `phodav-server.c:2694`–`2726`) -/

/-- C `check_lock (key, path, lock)` (`phodav-server.c:2694`): scan the
existing locks; any exclusive lock rejects; afterwards `other` is non-NULL
iff the list was non-empty, and a non-empty list rejects an exclusive
newcomer. -/
def check_lock (lock : DAVLock) (locks : List DAVLock) : Bool :=
  if locks.any (fun o => o.scope = LockScopeType.exclusive) then false
  else if ¬ locks.isEmpty ∧ lock.scope = LockScopeType.exclusive then false
  else true

/-- C `try_add_lock (self, path, lock)` (`phodav-server.c:2714`): walk the
parent paths checking compatibility; on success, `get_path` the target and
append the lock (`path_add_lock` appends, `phodav-server.c:122`). -/
def try_add_lock (reg : Registry) (path : String) (lock : DAVLock) : Bool × Registry :=
  if (foreach_parent_path reg path
        (fun _ locks (_ : Unit) => (check_lock lock locks, ())) ()).1 then
    let kr := get_path reg path
    (true, regModify kr.2 kr.1 (fun locks => locks ++ [lock]))
  else (false, reg)

/-! ## Token lookup and removal
(`path_get_lock`, `phodav-server.c:1096`–`1127`; `dav_lock_free`,
`phodav-server.c:221` / `phodav-lock.c:56`) -/

/-- The callback `_path_get_lock` (`phodav-server.c:1096`): scan the
path's locks for a token match; on a match record the lock (and its key)
and abort the walk. -/
def pathGetLockCb (token : String) (k : String) (locks : List DAVLock)
    (acc : Option (String × DAVLock)) : Bool × Option (String × DAVLock) :=
  match locks.find? (fun l => l.token = token) with
  | Option.some l => (false, Option.some (k, l))
  | Option.none => (true, acc)

/-- C `path_get_lock (self, path, token)` (`phodav-server.c:1116`),
additionally reporting the registry key of the found lock (in C the lock
reaches its `Path` through `lock->path`). -/
def path_get_lock (reg : Registry) (path token : String) : Option (String × DAVLock) :=
  (foreach_parent_path reg path (pathGetLockCb token) Option.none).2

/-- C `dav_lock_free` (`phodav-server.c:221`): `path_remove_lock` removes
the first matching list element (`g_list_remove`); the registry entry
itself stays in the table (the table holds its own reference). -/
def dav_lock_free (reg : Registry) (k : String) (lock : DAVLock) : Registry :=
  regModify reg k (fun locks => locks.erase lock)

/-! ## Submitted lock tokens (`phodav-lock.c:127`–`169`,
`phodav-server.c:1957`–`2027`) -/

/-- `LockSubmitted` as a `(path, token)` pair; `lock_submitted_new`
(`phodav-lock.c:127`) strips trailing slashes from the path it stores. -/
def lock_submitted_new (path token : String) : String × String :=
  (remove_trailing path '/', token)

/-- C `locks_submitted_has (locks, lock)` (`phodav-lock.c:153`): the
submitted list contains a pair matching both the lock's path (its registry
key `k`) and its token. -/
def locks_submitted_has (subs : List (String × String)) (k : String) (lock : DAVLock) : Bool :=
  subs.any (fun s => s.1 = k ∧ s.2 = lock.token)

/-- C `path_has_other_locks (self, path, locks)` (`phodav-server.c:2023`):
the walk callback `other_lock_exists` aborts (returns `FALSE`) as soon as
some lock on a consulted path is not in the submitted list; the function
returns the negation of the walk's completion. -/
def path_has_other_locks (reg : Registry) (path : String)
    (subs : List (String × String)) : Bool :=
  ! (foreach_parent_path reg path
      (fun k locks (_ : Unit) => (locks.all (locks_submitted_has subs k), ())) ()).1

/-! ## UNLOCK (`method_unlock`, `phodav-server.c:2877`–`2913`) -/

/-- C `remove_brackets` (`phodav-server.c:2877`): `NULL` stays `NULL`;
otherwise the string must start with `<` and end with `>` (so it has at
least two characters), and the brackets are stripped. -/
def remove_brackets (str : Option String) : Option String :=
  match str with
  | Option.none => Option.none
  | Option.some s =>
    if 2 ≤ s.data.length ∧ s.data.head? = Option.some '<' ∧ s.data.getLast? = Option.some '>'
    then Option.some ⟨s.data.drop 1 |>.dropLast⟩
    else Option.none

/-- C `method_unlock (handler, msg, path, err)` (`phodav-server.c:2891`):
take the `Lock-Token:` header stripped of brackets (malformed/missing →
`400`), look the token up on the path's ancestor chain (missing → `409
Conflict`), otherwise free the lock and answer `204 No Content`.  Returns
the status together with the updated registry. -/
def method_unlock (reg : Registry) (path : String) (lockTokenHdr : Option String) :
    Nat × Registry :=
  match remove_brackets lockTokenHdr with
  | Option.none => (400, reg)
  | Option.some token =>
    match path_get_lock reg path token with
    | Option.none => (409, reg)
    | Option.some kl => (204, dav_lock_free reg kl.1 kl.2)

/-! ## LOCK attachment (`method_lock`, `phodav-server.c:2755`–`2875`)

Only the lock-manager part of `method_lock` is embedded here: after the
XML body has produced scope/type/owner and a fresh `urn:uuid:` token, the
handler takes `lpath = get_path (self, path)`, builds the lock with
`dav_lock_new` and calls `try_add_lock`.  Body parsing, the refresh branch
and the lock-null file creation act on XML and the filesystem and are not
needed by the claims below. -/

/-- The attachment step of `method_lock` (`phodav-server.c:2840`–`2848`):
`get_path` first creates the (possibly fresh, empty) registry entry, then
`try_add_lock` re-walks the ancestors.  `dav_lock_new`
(`phodav-server.c:196`) refuses tokens whose length differs from the 45
bytes of `lock->token`.  Returns whether the lock was attached, with the
updated registry. -/
def method_lock_attach (reg : Registry) (path : String) (lock : DAVLock) :
    Bool × Registry :=
  if lock.token.data.length = 45 then
    let kr := get_path reg path
    try_add_lock kr.2 path lock
  else (false, reg)

/-! ## `If:` header evaluator (`phodav-if.c`; the same code appears
inline in `phodav-server.c:2029`–`2308`)

The evaluator is a destructive recursive-descent parser over the header
string; `IfState` carries the read cursor, the currently bound path and
the accumulated submitted `(path, token)` pairs.  The C loops do not
always advance on malformed input (e.g. `g_warn_if_reached` leaves the
cursor in place), so the loop functions below take explicit fuel and
return `Option.none` where the C code would loop forever. -/

/-- `IfState` (`phodav-if.c:21`). -/
structure IfState where
  cur   : List Char
  path  : String
  locks : List (String × String)
deriving DecidableEq, Repr

/-- The whitespace set `" \f\n\r\t\v"` of `eat_whitespaces`
(`phodav-if.c:32`). -/
def isIfSpace (c : Char) : Bool :=
  c = ' ' ∨ c = '\x0c' ∨ c = '\n' ∨ c = '\x0d' ∨ c = '\t' ∨ c = '\x0b'

/-- C `eat_whitespaces` (`phodav-if.c:29`): advance the cursor past
whitespace and report whether the end of the string was reached. -/
def eat_whitespaces (st : IfState) : Bool × IfState :=
  let cur' := st.cur.dropWhile isIfSpace
  (cur'.isEmpty, { st with cur := cur' })

/-- C `next_token` (`phodav-if.c:38`): eat whitespace (mutating the
state), then test whether `tok` is a prefix of the remaining input. -/
def next_token (st : IfState) (tok : String) : Bool × IfState :=
  let st' := (eat_whitespaces st).2
  (tok.data.isPrefixOf st'.cur, st')

/-- C `accept_token` (`phodav-if.c:46`): `next_token`, consuming the
token when present. -/
def accept_token (st : IfState) (tok : String) : Bool × IfState :=
  match next_token st tok with
  | (true, st') => (true, { st' with cur := st'.cur.drop tok.data.length })
  | (false, st') => (false, st')

/-- `strchr`: split `l` at the first occurrence of `c`, returning the
part before and the part after it. -/
def splitAtChar (c : Char) : List Char → Option (List Char × List Char)
  | [] => Option.none
  | x :: rest =>
    if x = c then Option.some ([], rest)
    else
      match splitAtChar c rest with
      | Option.none => Option.none
      | Option.some br => Option.some (x :: br.1, br.2)

/-- C `accept_ref` (`phodav-if.c:57`): consume `<`, then everything up to
the closing `>`; `NULL` when `<` is missing or `>` never occurs. -/
def accept_ref (st : IfState) : Option String × IfState :=
  match accept_token st "<" with
  | (false, st1) => (Option.none, st1)
  | (true, st1) =>
    match splitAtChar '>' st1.cur with
    | Option.some ur => (Option.some ⟨ur.1⟩, { st1 with cur := ur.2 })
    | Option.none => (Option.none, st1)

/-- The character-collecting loop of `accept_etag` (`phodav-if.c:91`):
stop at `"` (leaving it in the input); a backslash escapes the next
character.  A lone trailing backslash makes the C code read past the
terminating NUL (undefined behaviour); it is modelled as stopping at the
end of the input. -/
def etagChars : List Char → List Char × List Char
  | [] => ([], [])
  | '"' :: rest => ([], '"' :: rest)
  | '\\' :: c :: rest =>
    let br := etagChars rest
    (c :: br.1, br.2)
  | '\\' :: [] => ([], [])
  | c :: rest =>
    let br := etagChars rest
    (c :: br.1, br.2)

/-- C `accept_etag` (`phodav-if.c:77`): `[`, `"`, the escaped character
run, `"`, `]`; `NULL` unless the whole production is present. -/
def accept_etag (st : IfState) : Option String × IfState :=
  match accept_token st "[" with
  | (false, st1) => (Option.none, st1)
  | (true, st1) =>
    match accept_token st1 "\"" with
    | (false, st2) => (Option.none, st2)
    | (true, st2) =>
      let br := etagChars st2.cur
      let st3 := { st2 with cur := br.2 }
      match accept_token st3 "\"" with
      | (false, st4) => (Option.none, st4)
      | (true, st4) =>
        match accept_token st4 "]" with
        | (false, st5) => (Option.none, st5)
        | (true, st5) => (Option.some ⟨br.1⟩, st5)

/-- C `check_token` (`phodav-if.c:114`): the token `DAV:no-lock` always
fails; otherwise succeed iff `path_get_lock` finds a matching lock on the
bound path's ancestor chain. -/
def check_token (reg : Registry) (path token : String) : Bool :=
  if token = "DAV:no-lock" then false
  else (path_get_lock reg path token).isSome

/-- An etag oracle standing for the filesystem (`g_file_query_info` with
`etag::*`): the entity tag currently reported for each path, `Option.none`
when the query fails (missing file). -/
abbrev EtagOracle := String → Option String

/-- C `check_etag` (`phodav-if.c:127`): a failed file query fails the
condition; otherwise compare the supplied etag (possibly `NULL` after a
failed `accept_etag`, which never equals a non-NULL file etag) with the
file's etag. -/
def check_etag (etags : EtagOracle) (path : String) (etag : Option String) : Bool :=
  match etags path with
  | Option.none => false
  | Option.some fetag => etag = Option.some fetag

/-- C `eval_if_condition` (`phodav-if.c:163`): a `<token>` condition
appends `lock_submitted_new (state->path, token)` to the submitted list
(whether or not the check succeeds) and evaluates via `check_token`; an
`[etag]` condition evaluates via `check_etag`; anything else is
`g_warn_if_reached` and evaluates false without consuming input.  (When
`accept_ref` finds no closing `>`, the C code appends a NULL
`LockSubmitted` and checks a NULL token, which matches nothing; this is
modelled as evaluating false with the list unchanged.) -/
def eval_if_condition (reg : Registry) (etags : EtagOracle) (st : IfState) :
    Bool × IfState :=
  match next_token st "<" with
  | (true, st1) =>
    match accept_ref st1 with
    | (Option.some token, st2) =>
      (check_token reg st2.path token,
       { st2 with locks := st2.locks ++ [lock_submitted_new st2.path token] })
    | (Option.none, st2) => (false, st2)
  | (false, st1) =>
    match next_token st1 "[" with
    | (true, st2) =>
      match accept_etag st2 with
      | (etag, st3) => (check_etag etags st2.path etag, st3)
    | (false, st2) => (false, st2)

/-- C `eval_if_not_condition` (`phodav-if.c:190`): an optional `Not`
negates the condition's verdict. -/
def eval_if_not_condition (reg : Registry) (etags : EtagOracle) (st : IfState) :
    Bool × IfState :=
  match accept_token st "Not" with
  | (isNot, st1) =>
    match eval_if_condition reg etags st1 with
    | (res, st2) => (if isNot then !res else res, st2)

/-- The `while (!accept_token (state, ")"))` loop of `eval_if_list`
(`phodav-if.c:213`), conjoining condition verdicts; fuel bounds the
iterations (the C loop does not terminate on malformed input). -/
def evalIfListGo (reg : Registry) (etags : EtagOracle) :
    Nat → Bool → IfState → Option (Bool × IfState)
  | 0, _, _ => Option.none
  | Nat.succ fuel, success, st =>
    match accept_token st ")" with
    | (true, st1) => Option.some (success, st1)
    | (false, st1) =>
      match eval_if_not_condition reg etags st1 with
      | (r, st2) => evalIfListGo reg etags fuel (success && r) st2

/-- C `eval_if_list` (`phodav-if.c:204`): require `(`
(`g_return_val_if_fail` yields `FALSE` without consuming), evaluate the
first condition, then conjoin further conditions until `)`. -/
def eval_if_list (reg : Registry) (etags : EtagOracle) (fuel : Nat) (st : IfState) :
    Option (Bool × IfState) :=
  match accept_token st "(" with
  | (false, st1) => Option.some (false, st1)
  | (true, st1) =>
    match eval_if_not_condition reg etags st1 with
    | (r, st2) => evalIfListGo reg etags fuel r st2

/-- The `while (next_token (state, "("))` loop of `eval_if_lists`
(`phodav-if.c:226`), disjoining list verdicts. -/
def evalIfListsGo (reg : Registry) (etags : EtagOracle) :
    Nat → Bool → IfState → Option (Bool × IfState)
  | 0, _, _ => Option.none
  | Nat.succ fuel, success, st =>
    match next_token st "(" with
    | (false, st1) => Option.some (success, st1)
    | (true, st1) =>
      match eval_if_list reg etags fuel st1 with
      | Option.none => Option.none
      | Option.some rs => evalIfListsGo reg etags fuel (success || rs.1) rs.2

/-- C `eval_if_lists` (`phodav-if.c:219`): require a leading `(`
(`g_return_val_if_fail`), then OR together the parenthesised lists. -/
def eval_if_lists (reg : Registry) (etags : EtagOracle) (fuel : Nat) (st : IfState) :
    Option (Bool × IfState) :=
  match next_token st "(" with
  | (false, st1) => Option.some (false, st1)
  | (true, st1) => evalIfListsGo reg etags fuel false st1

/-- Find the first occurrence of pattern `pat` in `l`; return the input
split around it. -/
def findSub (pat : List Char) : List Char → Option (List Char × List Char)
  | [] => if pat = [] then Option.some ([], []) else Option.none
  | x :: rest =>
    if pat.isPrefixOf (x :: rest) then Option.some ([], (x :: rest).drop pat.length)
    else
      match findSub pat rest with
      | Option.none => Option.none
      | Option.some br => Option.some (x :: br.1, br.2)

/-- Modelled from the spec: the path component of an absolute
hierarchical URI, as `g_uri_parse` + `g_uri_get_path`
(`G_URI_FLAGS_ENCODED_PATH`) produce it for the `scheme://authority/path`
references that appear in tagged `If:` headers — everything from the
first `/` after the authority (empty when the authority ends the URI).
`Option.none` stands for a parse failure (the reference is not an
absolute hierarchical URI; the C code would dereference a NULL `GUri`). -/
def uriGetPath (s : String) : Option String :=
  match findSub "://".data s.data with
  | Option.none => Option.none
  | Option.some br =>
    match splitAtChar '/' br.2 with
    | Option.none => Option.some ""
    | Option.some ar => Option.some ⟨'/' :: ar.2⟩

/-- C `eval_if_tag` (`phodav-if.c:232`): read a `<URL>` reference
(`g_return_val_if_fail` when absent), bind `state->path` to the URL's
path component, then evaluate the following lists. -/
def eval_if_tag (reg : Registry) (etags : EtagOracle) (fuel : Nat) (st : IfState) :
    Option (Bool × IfState) :=
  match accept_ref st with
  | (Option.none, st1) => Option.some (false, st1)
  | (Option.some r, st1) =>
    match uriGetPath r with
    | Option.none => Option.some (false, st1)
    | Option.some p => eval_if_lists reg etags fuel { st1 with path := p }

/-- The `while (!eat_whitespaces (state))` loop over tagged productions in
`eval_if` (`phodav-if.c:257`). -/
def evalIfTagsLoop (reg : Registry) (etags : EtagOracle) :
    Nat → Bool → IfState → Option (Bool × IfState)
  | 0, success, st =>
    match eat_whitespaces st with
    | (true, st1) => Option.some (success, st1)
    | (false, _) => Option.none
  | Nat.succ fuel, success, st =>
    match eat_whitespaces st with
    | (true, st1) => Option.some (success, st1)
    | (false, st1) =>
      match eval_if_tag reg etags fuel st1 with
      | Option.none => Option.none
      | Option.some rs => evalIfTagsLoop reg etags fuel (success || rs.1) rs.2

/-- The `while (!eat_whitespaces (state))` loop over untagged list
productions in `eval_if` (`phodav-if.c:260`). -/
def evalIfUntaggedLoop (reg : Registry) (etags : EtagOracle) :
    Nat → Bool → IfState → Option (Bool × IfState)
  | 0, success, st =>
    match eat_whitespaces st with
    | (true, st1) => Option.some (success, st1)
    | (false, _) => Option.none
  | Nat.succ fuel, success, st =>
    match eat_whitespaces st with
    | (true, st1) => Option.some (success, st1)
    | (false, st1) =>
      match eval_if_lists reg etags fuel st1 with
      | Option.none => Option.none
      | Option.some rs => evalIfUntaggedLoop reg etags fuel (success || rs.1) rs.2

/-- C `eval_if` (`phodav-if.c:251`): a leading `<` selects the tagged
production, otherwise untagged lists; OR together the iterations until
the input is exhausted. -/
def eval_if (reg : Registry) (etags : EtagOracle) (fuel : Nat) (st : IfState) :
    Option (Bool × IfState) :=
  match next_token st "<" with
  | (true, st1) => evalIfTagsLoop reg etags fuel false st1
  | (false, st1) => evalIfUntaggedLoop reg etags fuel false st1

/-- C `phodav_check_if (handler, msg, path, locks)` (`phodav-if.c:267`;
`check_if` in `phodav-server.c:2275`): with no `If:` header the
evaluation trivially succeeds with no submitted tokens; with a header,
evaluate it — on success hand the accumulated tokens out, on failure
discard them.  The status is `200` on success and `412` (header present)
or `423` (no header) on failure; additionally, on success and except for
`COPY`, a lock on the request path or an ancestor that was not submitted
turns the status into `423 Locked`.  Returns `Option.none` when the C
evaluator would not terminate on the given fuel. -/
def phodav_check_if (reg : Registry) (etags : EtagOracle) (isCopy : Bool)
    (path : String) (hdr : Option String) (fuel : Nat) :
    Option (Nat × List (String × String)) :=
  match hdr with
  | Option.none =>
    let status := if !isCopy && path_has_other_locks reg path [] then 423 else 200
    Option.some (status, [])
  | Option.some s =>
    match eval_if reg etags fuel { cur := s.data, path := path, locks := [] } with
    | Option.none => Option.none
    | Option.some (true, st) =>
      let status := if !isCopy && path_has_other_locks reg path st.locks then 423 else 200
      Option.some (status, st.locks)
    | Option.some (false, _) => Option.some (412, [])

/-! ## Header parsing utilities (`phodav-utils.c:109`–`136`) -/

/-- C `depth_from_string` (`phodav-utils.c:109`): a missing header, the
string `"infinity"`, and any unrecognised value all map to
`DEPTH_INFINITY`; `"0"` and `"1"` map to their depths. -/
def depth_from_string (depth : Option String) : DepthType :=
  match depth with
  | Option.none => DepthType.infinity
  | Option.some d =>
    if d = "0" then DepthType.zero
    else if d = "1" then DepthType.one
    else DepthType.infinity

/-- The `Overwrite:` header test of `do_movecopy_file`
(`phodav-server.c:2583`): `overwrite = !!g_strcmp0 (header, "F")`, so a
missing header or any value other than `F` enables overwriting. -/
def overwrite_from_string (hdr : Option String) : Bool :=
  hdr ≠ Option.some "F"

/-! ## Filesystem model

The method handlers act on the filesystem through GIO (`GFile`), which is
external to this repository.  It is modelled as an association list from
absolute slash-separated paths to entries; an entry is a directory or a
regular file, both carrying their extended attributes (file contents are
irrelevant to every claim).  The server root `/` exists implicitly and is
never a key. -/

/-- A filesystem entry: directory flag plus extended attributes (keyed by
the full GIO attribute name, e.g. `xattr::ns#name`). -/
structure Ent where
  isDir  : Bool
  xattrs : List (String × String)
deriving DecidableEq, Repr

/-- The filesystem: absolute path → entry. -/
abbrev FS := List (String × Ent)

/-- The GIO error kinds the handlers branch on. -/
inductive GErr
  | notFound
  | alreadyExists
  | isDirectory
  | wouldMerge
  | wouldRecurse
  | notDirectory
deriving DecidableEq, Repr

/-- Look up a path. -/
def fsLookup (fs : FS) (p : String) : Option Ent :=
  match fs.find? (fun e => e.1 = p) with
  | Option.none => Option.none
  | Option.some e => Option.some e.2

/-- `g_file_query_exists`. -/
def fsExists (fs : FS) (p : String) : Bool :=
  (fsLookup fs p).isSome

/-- Store an entry under `p`, replacing an existing one. -/
def fsSet (fs : FS) (p : String) (ent : Ent) : FS :=
  if fsExists fs p then fs.map (fun e => if e.1 = p then (p, ent) else e)
  else fs ++ [(p, ent)]

/-- Strip `pre` from the front of `s`. -/
def stripPre (pre s : String) : Option String :=
  if pre.data.isPrefixOf s.data then Option.some ⟨s.data.drop pre.data.length⟩
  else Option.none

/-- All paths strictly below `p` keep, together with `p` itself, form the
subtree rooted at `p`. -/
def inSubtree (p k : String) : Bool :=
  k = p ∨ (stripPre (p ++ "/") k).isSome

/-- Remove the subtree rooted at `p`. -/
def fsRemoveTree (fs : FS) (p : String) : FS :=
  fs.filter (fun e => ! inSubtree p e.1)

/-- Rename the subtree rooted at `src` to `dst` (a native `rename`). -/
def fsRenameTree (fs : FS) (src dst : String) : FS :=
  fs.map (fun e =>
    if e.1 = src then (dst, e.2)
    else
      match stripPre (src ++ "/") e.1 with
      | Option.some rest => (dst ++ "/" ++ rest, e.2)
      | Option.none => e)

/-- Copy the subtree rooted at `src` over `dst` (the effect of
`do_copy_r`, `phodav-server.c:2519`, which creates the destination
directory with parents and copies every child with overwrite as
requested). -/
def fsCopyTree (fs : FS) (src dst : String) : FS :=
  let sub := fs.filterMap (fun e =>
    if e.1 = src then Option.some (dst, e.2)
    else
      match stripPre (src ++ "/") e.1 with
      | Option.some rest => Option.some (dst ++ "/" ++ rest, e.2)
      | Option.none => Option.none)
  sub.foldl (fun acc kv => fsSet acc kv.1 kv.2) fs

/-- Modelled from the spec: GIO `g_file_copy` as documented — without
`G_FILE_COPY_OVERWRITE` an existing destination raises `EXISTS`;
overwriting a file over a directory raises `IS_DIRECTORY`; a directory
over a directory raises `WOULD_MERGE`; a directory source with a missing
target (or a file target being overwritten) raises `WOULD_RECURSE`; a
missing source raises `NOT_FOUND`.  (The documentation does not order the
`EXISTS` and `NOT_FOUND` checks; the destination check is taken first.)
`G_FILE_COPY_ALL_METADATA` copies the extended attributes along. -/
def g_file_copy (fs : FS) (src dst : String) (overwrite : Bool) : Except GErr FS :=
  match fsLookup fs dst with
  | Option.some dstEnt =>
    if !overwrite then Except.error GErr.alreadyExists
    else
      match fsLookup fs src with
      | Option.none => Except.error GErr.notFound
      | Option.some srcEnt =>
        match srcEnt.isDir, dstEnt.isDir with
        | false, true => Except.error GErr.isDirectory
        | true, true => Except.error GErr.wouldMerge
        | true, false => Except.error GErr.wouldRecurse
        | false, false => Except.ok (fsSet fs dst srcEnt)
  | Option.none =>
    match fsLookup fs src with
    | Option.none => Except.error GErr.notFound
    | Option.some srcEnt =>
      if srcEnt.isDir then Except.error GErr.wouldRecurse
      else Except.ok (fsSet fs dst srcEnt)

/-- Modelled from the spec: GIO `g_file_move` as documented — the same
error conditions as `g_file_copy` for an existing destination and a
missing source, while a native rename moves whole directory trees when
the destination is absent. -/
def g_file_move (fs : FS) (src dst : String) (overwrite : Bool) : Except GErr FS :=
  match fsLookup fs dst with
  | Option.some dstEnt =>
    if !overwrite then Except.error GErr.alreadyExists
    else
      match fsLookup fs src with
      | Option.none => Except.error GErr.notFound
      | Option.some srcEnt =>
        match srcEnt.isDir, dstEnt.isDir with
        | false, true => Except.error GErr.isDirectory
        | true, true => Except.error GErr.wouldMerge
        | true, false => Except.error GErr.wouldRecurse
        | false, false => Except.ok (fsRenameTree (fsRemoveTree fs dst) src dst)
  | Option.none =>
    match fsLookup fs src with
    | Option.none => Except.error GErr.notFound
    | Option.some _ => Except.ok (fsRenameTree fs src dst)

/-- C `do_delete_file` (`phodav-server.c:2462`): recursive delete,
children first; answers `204 No Content` on success and stamps `404` for
a missing target (other per-child I/O failures are not representable in
this model). -/
def do_delete_file (fs : FS) (p : String) : Nat × FS :=
  if fsExists fs p then (204, fsRemoveTree fs p) else (404, fs)

/-! ## MOVE / COPY (`do_movecopy_file` / `method_movecopy`,
`phodav-server.c:2568`–`2692`) -/

/-- The single move-or-copy attempt of `do_movecopy_file`
(`phodav-server.c:2594`–`2596`). -/
def movecopyOp (fs : FS) (copy : Bool) (src dst : String) (overwrite : Bool) :
    Except GErr FS :=
  if copy then g_file_copy fs src dst overwrite else g_file_move fs src dst overwrite

/-- The error dispatch of `do_movecopy_file`'s `switch` body once the
delete-and-retry branch is unavailable (`phodav-server.c:2607`–`2629`):
`EXISTS` without overwrite → `412` (the initial status); `WOULD_RECURSE`
on a copy recurses (`do_copy_r` at depth infinity, otherwise
`g_file_make_directory_with_parents`) and on a move falls through with
the error cleared; `NOT_FOUND` → `409`; any remaining error is propagated
and the initial `412` is returned.  `existed` records whether the
destination existed before the first attempt, fixing the success
status. -/
def movecopyHandleErr (fs : FS) (copy : Bool) (src dst : String)
    (depth : DepthType) (overwrite existed : Bool) (e : GErr) : Nat × FS :=
  if ¬ overwrite ∧ e = GErr.alreadyExists then (412, fs)
  else if e = GErr.wouldRecurse then
    if copy then
      if depth = DepthType.infinity then
        (if existed then 204 else 201, fsCopyTree fs src dst)
      else if fsExists fs dst then (412, fs)
      else (if existed then 204 else 201, fsSet fs dst ⟨true, []⟩)
    else (if existed then 204 else 201, fs)
  else if e = GErr.notFound then (409, fs)
  else (412, fs)

/-- C `do_movecopy_file (msg, file, dest, dest_path, …)`
(`phodav-server.c:2568`): parse `Depth:` and `Overwrite:`, record whether
the destination exists, and dispatch on `switch (depth)` — its cases
cover only `DEPTH_INFINITY` and `DEPTH_ZERO`, so a `Depth: 1` request
falls through the `default:` branch (`g_warn_if_reached`) without
attempting any operation and, `error` being unset, returns the success
status with the filesystem untouched.  For the covered depths: attempt
the move/copy, optionally delete the destination and retry once on
`IS_DIRECTORY`/`WOULD_MERGE` with overwrite enabled, and map the outcome
to a status: success is `204 No Content` when the destination previously
existed and `201 Created` otherwise. -/
def do_movecopy_file (fs : FS) (copy : Bool) (src dst : String)
    (depthHdr overwriteHdr : Option String) : Nat × FS :=
  let depth := depth_from_string depthHdr
  let overwrite := overwrite_from_string overwriteHdr
  let existed := fsExists fs dst
  match depth with
  | DepthType.one => (if existed then 204 else 201, fs)
  | _ =>
    match movecopyOp fs copy src dst overwrite with
    | Except.ok fs' => (if existed then 204 else 201, fs')
    | Except.error e =>
      if overwrite ∧ (e = GErr.isDirectory ∨ e = GErr.wouldMerge) ∧
          (do_delete_file fs dst).1 = 204 then
        let fs1 := (do_delete_file fs dst).2
        match movecopyOp fs1 copy src dst overwrite with
        | Except.ok fs2 => (if existed then 204 else 201, fs2)
        | Except.error e2 => movecopyHandleErr fs1 copy src dst depth overwrite existed e2
      else movecopyHandleErr fs copy src dst depth overwrite existed e

/-- C `method_movecopy (handler, msg, path, err)`
(`phodav-server.c:2647`): extract the destination path from the
`Destination:` header URI (missing or empty → `404`), evaluate `If:`
(non-`200` short-circuits), refuse destinations carrying locks not held
by the caller (`423`), then run `do_movecopy_file`.  (Percent-unescaping
of the destination is the identity on the escape-free paths modelled
here.) -/
def method_movecopy (reg : Registry) (etags : EtagOracle) (fs : FS)
    (copy : Bool) (path : String) (destHdr ifHdr depthHdr overwriteHdr : Option String)
    (fuel : Nat) : Option (Nat × FS) :=
  match destHdr with
  | Option.none => Option.some (404, fs)
  | Option.some d =>
    match uriGetPath d with
    | Option.none => Option.some (404, fs)
    | Option.some dest =>
      if dest = "" then Option.some (404, fs)
      else
        match phodav_check_if reg etags copy path ifHdr fuel with
        | Option.none => Option.none
        | Option.some (status, submitted) =>
          if status ≠ 200 then Option.some (status, fs)
          else if path_has_other_locks reg dest submitted then Option.some (423, fs)
          else Option.some (do_movecopy_file fs copy path dest depthHdr overwriteHdr)

/-! ## MKCOL (`phodav-method-mkcol.c`) -/

/-- `/`-join a segment list under the root: `[] ↦ "/"`,
`["a","b"] ↦ "/a/b"`. -/
def sepJoin : List String → String
  | [] => ""
  | [a] => a
  | a :: rest => a ++ "/" ++ sepJoin rest

/-- A canonical absolute path for a segment list. -/
def joinSegs (l : List String) : String := "/" ++ sepJoin l

/-- The parent path of `p` (the GFile parent): drop the last non-empty
segment. -/
def parentPath (p : String) : String :=
  joinSegs (splitSegs p).dropLast

/-- Modelled from the spec: GIO `g_file_make_directory` — an existing
target raises `EXISTS`, a missing parent raises `NOT_FOUND`, a
non-directory parent raises `NOT_DIRECTORY`; otherwise the directory is
created.  The server root `/` always exists. -/
def g_file_make_directory (fs : FS) (p : String) : Except GErr FS :=
  if fsExists fs p then Except.error GErr.alreadyExists
  else
    let par := parentPath p
    if par = "/" then Except.ok (fsSet fs p ⟨true, []⟩)
    else
      match fsLookup fs par with
      | Option.none => Except.error GErr.notFound
      | Option.some ent =>
        if ent.isDir then Except.ok (fsSet fs p ⟨true, []⟩)
        else Except.error GErr.notDirectory

/-- C `do_mkcol_file` (`phodav-method-mkcol.c:20`): map
`g_file_make_directory`'s outcome to `201 Created`, `409 Conflict`
(missing parent), `405 Method Not Allowed` (existing target), or `403
Forbidden` (any other error). -/
def do_mkcol_file (fs : FS) (p : String) : Nat × FS :=
  match g_file_make_directory fs p with
  | Except.ok fs' => (201, fs')
  | Except.error GErr.notFound => (409, fs)
  | Except.error GErr.alreadyExists => (405, fs)
  | Except.error _ => (403, fs)

/-- C `phodav_method_mkcol` (`phodav-method-mkcol.c:46`): a non-empty
request body yields `415 Unsupported Media Type` before anything else;
then `If:` is evaluated and a non-`200` verdict is returned as is;
finally `do_mkcol_file` acts. -/
def phodav_method_mkcol (reg : Registry) (etags : EtagOracle) (fs : FS)
    (path : String) (bodyLen : Nat) (ifHdr : Option String) (fuel : Nat) :
    Option (Nat × FS) :=
  if bodyLen ≠ 0 then Option.some (415, fs)
  else
    match phodav_check_if reg etags false path ifHdr fuel with
    | Option.none => Option.none
    | Option.some (status, _) =>
      if status ≠ 200 then Option.some (status, fs)
      else Option.some (do_mkcol_file fs path)

/-! ## Dead properties as extended attributes
(`xml_node_get_xattr_name`, `phodav-utils.c:212` — the same helper is
`node_get_xattr_name` in `phodav-server.c:996`; `prop_xattr`,
`phodav-server.c:1468`; `set_attr` / `prop_set`,
`phodav-server.c:1815`–`1909`; `propfind_populate`,
`phodav-server.c:1495`) -/

/-- A property's XML identity: optional namespace href plus local name
(`node->ns->href` and `node->name`). -/
structure XmlName where
  ns   : Option String
  name : String
deriving DecidableEq, Repr

/-- C `xml_node_get_xattr_name (node, prefix)` (`phodav-utils.c:212`):
`prefix ++ ns ++ "#" ++ name` with a namespace, `prefix ++ name`
without. -/
def xml_node_get_xattr_name (n : XmlName) (pre : String) : String :=
  match n.ns with
  | Option.some u => pre ++ u ++ "#" ++ n.name
  | Option.none => pre ++ n.name

/-- C `prop_xattr (xattr)` (`phodav-server.c:1468`): skip the 7-character
`xattr::` prefix, then split at the first `#` — the part before is the
namespace href and the part after the local name; with no `#` the whole
remainder is the local name and there is no namespace. -/
def prop_xattr_name (xattr : String) : XmlName :=
  let rest := xattr.data.drop 7
  match splitAtChar '#' rest with
  | Option.some br => { ns := Option.some ⟨br.1⟩, name := ⟨br.2⟩ }
  | Option.none => { ns := Option.none, name := ⟨rest⟩ }

/-- Set (replace or add) an extended attribute on an attribute list. -/
def xattrSet (xs : List (String × String)) (k v : String) : List (String × String) :=
  if xs.any (fun e => e.1 = k) then xs.map (fun e => if e.1 = k then (k, v) else e)
  else xs ++ [(k, v)]

/-- Read an extended attribute (`g_file_info_get_attribute_string`). -/
def xattrGet (xs : List (String × String)) (k : String) : Option String :=
  match xs.find? (fun e => e.1 = k) with
  | Option.none => Option.none
  | Option.some e => Option.some e.2

/-- The `set` branch of PROPPATCH for one property (`prop_set` with
`remove = FALSE`, `phodav-server.c:1869`, via `set_attr` with type
`G_FILE_ATTRIBUTE_TYPE_STRING`, `phodav-server.c:1839`): store the
serialized element content under `xattr::` + encoded name;
`g_file_set_attribute` on a missing file fails, which `set_attr` maps to
`404`. -/
def prop_set_xattr (fs : FS) (path : String) (n : XmlName) (value : String) : Nat × FS :=
  match fsLookup fs path with
  | Option.none => (404, fs)
  | Option.some ent =>
    (200,
     fsSet fs path
       { ent with xattrs := xattrSet ent.xattrs (xml_node_get_xattr_name n "xattr::") value })

/-- The live properties of `prop_list` (`phodav-server.c:1444`), matched
by `node_has_name`, which also requires the `DAV:` namespace. -/
def prop_list_names : List String :=
  ["resourcetype", "creationdate", "getlastmodified", "getcontentlength",
   "getcontenttype", "displayname", "getetag", "executable", "supportedlock",
   "lockdiscovery", "quota-available-bytes", "quota-used-bytes"]

/-- The `PROPFIND_PROP` branch of `propfind_populate`
(`phodav-server.c:1537`–`1573`) for a single requested property on an
existing resource: a `DAV:`-namespaced name from `prop_list` is served by
its live-property function (status `200`; the rendered value is opaque
here); any other name is encoded with the `xattr::` prefix and looked up
among the file's extended attributes — found values are returned with
status `200`, otherwise the empty element is stamped `404`. -/
def propfind_prop_one (fs : FS) (path : String) (n : XmlName) : Nat × Option String :=
  if n.ns = Option.some "DAV:" ∧ n.name ∈ prop_list_names then (200, Option.none)
  else
    match fsLookup fs path with
    | Option.none => (404, Option.none)
    | Option.some ent =>
      match xattrGet ent.xattrs (xml_node_get_xattr_name n "xattr::") with
      | Option.some v => (200, Option.some v)
      | Option.none => (404, Option.none)

/-! ## PROPFIND (`method_propfind`, `phodav-server.c:1749`;
`propfind_query_zero` / `propfind_query_one`, `phodav-server.c:1579`) -/

/-- `PropFindType` (`phodav-priv.h`): the three request forms. -/
inductive PropfindType
  | allprop
  | propname
  | prop
deriving DecidableEq, Repr

/-- The request body of PROPFIND as the handler sees it: absent/empty,
unparsable XML, or a parsed `<propfind>`. -/
inductive PropfindBody
  | empty
  | malformed
  | parsed (t : PropfindType)
deriving DecidableEq, Repr

/-- C `g_markup_escape_text` for one character (the subset relevant to
file names). -/
def markupEscapeChar (c : Char) : List Char :=
  if c = '&' then "&amp;".data
  else if c = '<' then "&lt;".data
  else if c = '>' then "&gt;".data
  else if c = '\'' then "&apos;".data
  else if c = '"' then "&quot;".data
  else [c]

/-- C `g_markup_escape_text`. -/
def markupEscape (s : String) : String :=
  ⟨(s.data.map markupEscapeChar).flatten⟩

/-- The child-name view of the filesystem: `k` is an immediate child of
directory `p` when it extends `p` by exactly one non-empty slash-free
segment.  This is what `g_file_enumerate_children` reports. -/
def childNameOf (p k : String) : Option String :=
  let pre := if p = "/" then "/" else p ++ "/"
  match stripPre pre k with
  | Option.none => Option.none
  | Option.some rest =>
    if rest ≠ "" ∧ ¬ rest.data.contains '/' then Option.some rest else Option.none

/-- The immediate children names of `p` in enumeration order. -/
def childrenNames (fs : FS) (p : String) : List String :=
  fs.filterMap (fun e => childNameOf p e.1)

/-- C `propfind_query_zero` (`phodav-server.c:1579`): query the target; a
missing file is the overall status `404`, otherwise one response is
recorded for the target. -/
def propfind_query_zero (fs : FS) (path : String) : Nat × List String :=
  if fsExists fs path then (200, [path]) else (404, [])

/-- C `propfind_query_one` (`phodav-server.c:1611`): the target's
response as in `propfind_query_zero`, then one response per enumerated
child under `g_build_path ("/", path, escaped-name)` (enumerating a
non-directory fails silently, leaving just the target). -/
def propfind_query_one (fs : FS) (path : String) : Nat × List String :=
  match propfind_query_zero fs path with
  | (200, r) =>
    (200, r ++ (childrenNames fs path).map (fun n => buildPath path (markupEscape n)))
  | other => other

/-- C `method_propfind (handler, msg, path, err)`
(`phodav-server.c:1749`): an empty (or absent) request body is treated as
`allprop`; unparsable XML is `400 Bad Request`; `Depth: 0` queries the
target only and `Depth: 1` the target plus its immediate children
(success becomes `207 Multi-Status`); any other depth — `infinity` — is
refused with `403 Forbidden`.  The result lists the `<response>` paths of
the multistatus. -/
def method_propfind (fs : FS) (path : String) (depthHdr : Option String)
    (body : PropfindBody) : Nat × List String :=
  let depth := depth_from_string depthHdr
  match body with
  | PropfindBody.malformed => (400, [])
  | _ =>
    match depth with
    | DepthType.zero =>
      match propfind_query_zero fs path with
      | (200, r) => (207, r)
      | other => other
    | DepthType.one =>
      match propfind_query_one fs path with
      | (200, r) => (207, r)
      | other => other
    | DepthType.infinity => (403, [])

/-! ## Multiplexer framing (`src/spice/spice-webdavd.c`)

Frames carry a 64-bit client id and a 16-bit size, written as raw bytes
of the in-memory integers (little-endian on the supported hosts);
`output_queue_push` is FIFO with one in-flight write-all per element
(`output-queue` invariants), so consecutive pushes appear concatenated on
the transport. -/

/-- The `k` little-endian bytes of `n` (raw memory of a `k`-byte unsigned
integer, value taken modulo `2^(8k)`). -/
def leBytes : Nat → Nat → List Nat
  | 0, _ => []
  | Nat.succ k, n => n % 256 :: leBytes k (n / 256)

/-- Recompose a little-endian byte list. -/
def fromLE : List Nat → Nat
  | [] => 0
  | b :: bs => b + 256 * fromLE bs

/-- The bytes `client_read_cb` (`spice-webdavd.c:513`) queues on the
transport for one local read: `&client->id` (8 bytes), `&client->size`
(2 bytes, the `guint16` holding the read size), then the payload. -/
def client_frame (id : Nat) (payload : List Nat) : List Nat :=
  leBytes 8 id ++ leBytes 2 payload.length ++ payload

/-- Parse one frame off the transport, as the strictly serialized reads
of `start_mux_read` / `mux_client_read_cb` / `mux_size_read_cb` /
`mux_data_read_cb` do: 8 id bytes, 2 size bytes, `size` payload bytes;
returns `(client_id, payload, remaining bytes)`. -/
def decodeFrame (bytes : List Nat) : Option (Nat × List Nat × List Nat) :=
  if bytes.length < 10 then Option.none
  else
    let id := fromLE (bytes.take 8)
    let size := fromLE ((bytes.drop 8).take 2)
    let rest := bytes.drop 10
    if rest.length < size then Option.none
    else Option.some (id, rest.take size, rest.drop size)

/-- The local sessions of one multiplexer endpoint: client id → the
payloads queued on that client's own output queue. -/
abbrev Clients := List (Nat × List (List Nat))

/-- `g_hash_table_lookup (clients, &id)`. -/
def clientsLookup (cls : Clients) (id : Nat) : Option (List (List Nat)) :=
  match cls.find? (fun e => e.1 = id) with
  | Option.none => Option.none
  | Option.some e => Option.some e.2

/-- C `remove_client` (`spice-webdavd.c:292`): drop the session from the
table (freeing it). -/
def remove_client (cls : Clients) (id : Nat) : Clients :=
  cls.filter (fun e => e.1 ≠ id)

/-- C `mux_data_read_cb` (`spice-webdavd.c:396`) after the payload of the
current frame has been read: look the client up; when present, push the
payload — whatever its size — onto that client's output queue; when
absent, do nothing (and re-arm the transport read in both cases).  The
session table itself is never altered here. -/
def mux_data_read_cb (cls : Clients) (cid : Nat) (payload : List Nat) : Clients :=
  match clientsLookup cls cid with
  | Option.none => cls
  | Option.some _ =>
    cls.map (fun e => if e.1 = cid then (e.1, e.2 ++ [payload]) else e)

/-- C `mux_pushed_cb` (`spice-webdavd.c:494`), run on the *sending* side
after its three pushes drained: a zero `client->size` (local EOF) frees
the client, otherwise the next local read starts. -/
def mux_pushed_cb (cls : Clients) (id size : Nat) : Clients :=
  if size = 0 then remove_client cls id else cls

/-! ## Derived views and reachability (used by the theorems below) -/

/-- The ancestor walk as a fold over an explicit key list: keys are taken
in order, present entries run the callback, a `false` return aborts.  The
theorems below prove `foreach_parent_path` equal to this fold over
`consultedKeys`. -/
def fppOverKeys (reg : Registry) (cb : String → List DAVLock → σ → Bool × σ) :
    List String → σ → Bool × σ
  | [], s => (true, s)
  | k :: ks, s =>
    match regLookup reg k with
    | Option.none => fppOverKeys reg cb ks s
    | Option.some locks =>
      match cb k locks s with
      | (true, s') => fppOverKeys reg cb ks s'
      | (false, s') => (false, s')

/-- The `(key, lock)` pairs the walk passes over, flattened in visit
order. -/
def walkLocks (reg : Registry) (ks : List String) : List (String × DAVLock) :=
  ks.flatMap (fun k =>
    match regLookup reg k with
    | Option.none => []
    | Option.some locks => locks.map (fun l => (k, l)))

/-- Modelled from the spec: the consult sequence the spec asserts for the
ancestor walk — the registry is consulted for `/`, `/a`, `/a/b`, … in
that root-first order (the non-root part being the joined non-empty
prefixes of the split path). -/
def specConsultedKeys (path : String) : List String :=
  "/" :: ((splitSegs path).inits.drop 1).map joinSegs

/-- The lock-compatibility invariant of one path's lock list: an
exclusive lock never coexists with any other lock (hence shared locks
coexist only with shared locks). -/
def locksOk (locks : List DAVLock) : Prop :=
  ∀ l ∈ locks, l.scope = LockScopeType.exclusive → locks = [l]

/-- C `dav_lock_refresh_timeout` (`phodav-server.c:187`): `timeout = 0`
means infinite, otherwise the expiry is `now + timeout` (monotonic
seconds). -/
def dav_lock_refresh_timeout (lock : DAVLock) (now timeout : Nat) : DAVLock :=
  { lock with timeout := if timeout = 0 then 0 else now + timeout }

/-- The refresh branch of `method_lock` (`phodav-server.c:2781`–`2799`):
look the submitted token up on the ancestor chain and refresh that lock's
timeout in place. -/
def lock_refresh (reg : Registry) (path token : String) (now timeout : Nat) : Registry :=
  match path_get_lock reg path token with
  | Option.none => reg
  | Option.some kl =>
    regModify reg kl.1
      (fun locks => locks.map (fun l =>
        if l = kl.2 then dav_lock_refresh_timeout l now timeout else l))

/-- The lock-manager states reachable from the empty registry through the
server's lock operations: LOCK attachment, UNLOCK, and LOCK refresh. -/
inductive Reach : Registry → Prop
  | empty : Reach []
  | attach {reg : Registry} (path : String) (lock : DAVLock) (h : Reach reg) :
      Reach (method_lock_attach reg path lock).2
  | unlock {reg : Registry} (path : String) (hdr : Option String) (h : Reach reg) :
      Reach (method_unlock reg path hdr).2
  | refresh {reg : Registry} (path token : String) (now timeout : Nat) (h : Reach reg) :
      Reach (lock_refresh reg path token now timeout)

/-- No lock anywhere in the registry carries token `tok` (a fresh
`urn:uuid:` token). -/
def tokFresh (reg : Registry) (tok : String) : Prop :=
  ∀ e ∈ reg, ∀ l ∈ e.2, l.token ≠ tok

/-- A registry key is canonical when the ancestor walk of the key itself
consults it (equivalently, it is `/a/b/…`-shaped: non-empty slash-free
segments, no duplicate, leading-only, or trailing slashes beyond the
root).  `get_path` keys of other shapes — notably the root, stored under
`""` — are invisible to every walk. -/
def canonicalKey (k : String) : Prop :=
  k ∈ consultedKeys k

/-- The lock-compatibility invariant over all canonical registry keys. -/
def regInv (reg : Registry) : Prop :=
  ∀ k, canonicalKey k → ∀ locks, regLookup reg k = Option.some locks → locksOk locks

/-- `st'` extends `st`'s submitted-token list: the evaluator only ever
appends to `IfState.locks`. -/
def locksExtend (st st' : IfState) : Prop :=
  ∃ L, st'.locks = st.locks ++ L

/-- A sample 45-character lock token in the `urn:uuid:` format
`method_lock` generates. -/
def tokenA : String := "urn:uuid:aaaaaaaa-aaaa-aaaa-aaaa-aaaaaaaaaaaa"

/-- A second sample 45-character lock token. -/
def tokenB : String := "urn:uuid:bbbbbbbb-bbbb-bbbb-bbbb-bbbbbbbbbbbb"

/-- A sample exclusive write lock carrying `tokenA`. -/
def exclLockA : DAVLock :=
  ⟨tokenA, LockScopeType.exclusive, LockType.write, DepthType.zero, Option.none, 0⟩

/-- A sample exclusive write lock carrying `tokenB`. -/
def exclLockB : DAVLock :=
  ⟨tokenB, LockScopeType.exclusive, LockType.write, DepthType.zero, Option.none, 0⟩

/-- A sample shared write lock carrying `tokenA`. -/
def sharedLockA : DAVLock :=
  ⟨tokenA, LockScopeType.shared, LockType.write, DepthType.zero, Option.none, 0⟩

/-- Modelled from the spec: the receiver step the spec asserts for a
zero-size frame — "the receiver of such a frame closes and frees the
local session associated with `client_id`"; a non-empty payload is
delivered to the session's queue. -/
def specMuxReceiverStep (cls : Clients) (cid : Nat) (payload : List Nat) : Clients :=
  if payload.length = 0 then remove_client cls cid
  else
    match clientsLookup cls cid with
    | Option.none => cls
    | Option.some _ =>
      cls.map (fun e => if e.1 = cid then (e.1, e.2 ++ [payload]) else e)

/-! # Theorems

First, infrastructure lemmas about the ancestor walk, then the claims. -/

theorem strEq_of_data {s t : String} (h : s.data = t.data) : s = t :=
  String.ext h

theorem fppGo_eq_overKeys (reg : Registry) (cb : String → List DAVLock → σ → Bool × σ) :
    ∀ (segs : List String) (part : String) (s : σ),
    fppGo reg cb part segs s = fppOverKeys reg cb (consultedFrom part segs) s := by
  intro segs
  induction segs with
  | nil => intro part s; rfl
  | cons seg rest ih =>
    intro part s
    by_cases hseg : seg = ""
    · simp [fppGo, consultedFrom, hseg, ih]
    · simp only [fppGo, consultedFrom, hseg, if_neg hseg, ite_false]
      cases hlook : regLookup reg (buildPath part seg) with
      | none => simp [fppOverKeys, hlook, ih]
      | some locks =>
        cases hcb : cb (buildPath part seg) locks s with
        | mk b s' =>
          cases b with
          | true => simp [fppOverKeys, hlook, hcb, ih]
          | false => simp [fppOverKeys, hlook, hcb]

theorem foreach_eq_overKeys (reg : Registry) (cb : String → List DAVLock → σ → Bool × σ)
    (path : String) (s : σ) :
    foreach_parent_path reg path cb s = fppOverKeys reg cb (consultedKeys path) s := by
  unfold foreach_parent_path consultedKeys
  exact fppGo_eq_overKeys reg cb _ "/" s

theorem consultedFrom_filter (part : String) (segs : List String) :
    consultedFrom part segs = consultedFrom part (segs.filter (fun s => s ≠ "")) := by
  induction segs generalizing part with
  | nil => rfl
  | cons seg rest ih =>
    by_cases hseg : seg = ""
    · simp [consultedFrom, hseg, ih]
    · simp [consultedFrom, hseg, ih]

theorem mk_eq_empty_iff (l : List Char) : (⟨l⟩ : String) = "" ↔ l = [] := by
  constructor
  · intro h
    have := congrArg String.data h
    simpa using this
  · intro h; subst h; rfl

theorem splitSegs_eq_filter_map (path : String) :
    splitSegs path
      = ((splitOnSlash path.data).map (fun l => (⟨l⟩ : String))).filter (fun s => s ≠ "") := by
  unfold splitSegs
  rw [List.filter_map]
  congr 1
  apply List.filter_congr
  intro l _
  simp [Function.comp, mk_eq_empty_iff]

theorem consultedKeys_eq_splitSegs (path : String) :
    consultedKeys path = consultedFrom "/" (splitSegs path) := by
  unfold consultedKeys
  rw [consultedFrom_filter, splitSegs_eq_filter_map]

theorem splitOnSlash_ne_nil (l : List Char) : splitOnSlash l ≠ [] := by
  cases l with
  | nil => simp [splitOnSlash]
  | cons c rest =>
    unfold splitOnSlash
    cases h : splitOnSlash rest with
    | nil => cases hc : decide (c = '/') <;> simp
    | cons p ps => cases hc : decide (c = '/') <;> simp

theorem splitOnSlash_append_slash (xs : List Char) :
    splitOnSlash (xs ++ ['/']) = splitOnSlash xs ++ [[]] := by
  induction xs with
  | nil => rfl
  | cons c rest ih =>
    show splitOnSlash (c :: (rest ++ ['/'])) = splitOnSlash (c :: rest) ++ [[]]
    unfold splitOnSlash
    rw [ih]
    by_cases hc : c = '/'
    · simp [hc]
    · have hne := splitOnSlash_ne_nil rest
      cases h : splitOnSlash rest with
      | nil => exact absurd h hne
      | cons p ps => simp [hc]

theorem splitSegs_mk_append_slash (xs : List Char) :
    splitSegs ⟨xs ++ ['/']⟩ = splitSegs ⟨xs⟩ := by
  show ((splitOnSlash (xs ++ ['/'])).filter (fun l => l ≠ [])).map _
      = ((splitOnSlash xs).filter (fun l => l ≠ [])).map _
  rw [splitOnSlash_append_slash]
  simp

theorem splitSegs_mk_append_replicate (xs : List Char) (n : Nat) :
    splitSegs ⟨xs ++ List.replicate n '/'⟩ = splitSegs ⟨xs⟩ := by
  induction n with
  | zero => simp
  | succ k ih =>
    have : xs ++ List.replicate (k + 1) '/' = (xs ++ List.replicate k '/') ++ ['/'] := by
      simp [List.replicate_succ']
    rw [this, splitSegs_mk_append_slash, ih]

theorem data_decomp_remove_trailing (s : String) (c : Char) :
    ∃ n, s.data = (remove_trailing s c).data ++ List.replicate n c := by
  refine ⟨(s.data.reverse.takeWhile (fun x => x = c)).length, ?_⟩
  show s.data = dropTrailingChar c s.data ++ _
  unfold dropTrailingChar
  have htk : s.data.reverse.takeWhile (fun x => x = c)
      = List.replicate (s.data.reverse.takeWhile (fun x => x = c)).length c := by
    apply List.eq_replicate_of_mem
    intro b hb
    have hpb := List.mem_takeWhile_imp hb
    simpa using hpb
  conv_lhs => rw [← List.reverse_reverse s.data,
    ← List.takeWhile_append_dropWhile (fun x => x = c) s.data.reverse]
  rw [List.reverse_append]
  congr 1
  rw [htk]
  simp

theorem splitSegs_remove_trailing (path : String) :
    splitSegs (remove_trailing path '/') = splitSegs path := by
  obtain ⟨n, hn⟩ := data_decomp_remove_trailing path '/'
  have h1 : splitSegs path = splitSegs ⟨path.data⟩ := rfl
  rw [h1, hn]
  have h2 : remove_trailing path '/' = ⟨(remove_trailing path '/').data⟩ := rfl
  rw [h2]
  exact (splitSegs_mk_append_replicate (remove_trailing path '/').data n).symm

theorem consultedKeys_remove_trailing (path : String) :
    consultedKeys (remove_trailing path '/') = consultedKeys path := by
  rw [consultedKeys_eq_splitSegs, consultedKeys_eq_splitSegs, splitSegs_remove_trailing]

theorem mem_splitSegs_ne_empty {path : String} {s : String} (h : s ∈ splitSegs path) :
    s ≠ "" := by
  unfold splitSegs at h
  obtain ⟨l, hl, rfl⟩ := List.mem_map.mp h
  have := List.of_mem_filter hl
  simpa [mk_eq_empty_iff] using this

theorem sepJoin_append_single (l : List String) (a : String) (hl : l ≠ []) :
    sepJoin (l ++ [a]) = sepJoin l ++ "/" ++ a := by
  induction l with
  | nil => exact absurd rfl hl
  | cons x xs ih =>
    cases xs with
    | nil => rfl
    | cons y ys =>
      show sepJoin (x :: (y :: ys ++ [a])) = sepJoin (x :: y :: ys) ++ "/" ++ a
      have hys : (y :: ys : List String) ≠ [] := by simp
      apply strEq_of_data
      have hih := congrArg String.data (ih hys)
      simp only [sepJoin, String.data_append] at hih ⊢
      simp only [List.cons_append, List.append_eq] at hih ⊢
      rw [hih]
      simp

theorem sepJoin_ne_empty (l : List String) (hne : ∀ x ∈ l, x ≠ "") (hl : l ≠ []) :
    sepJoin l ≠ "" := by
  cases l with
  | nil => exact absurd rfl hl
  | cons x xs =>
    cases xs with
    | nil =>
      have hx : x ≠ "" := hne x (by simp)
      simpa [sepJoin] using hx
    | cons y ys =>
      intro h
      have := congrArg String.data h
      simp [sepJoin, String.data_append] at this

theorem joinSegs_ne_root (l : List String) (hne : ∀ x ∈ l, x ≠ "") (hl : l ≠ []) :
    joinSegs l ≠ "/" := by
  intro h
  have hdata := congrArg String.data h
  simp only [joinSegs, String.data_append] at hdata
  have : (sepJoin l).data = [] := by simpa using hdata
  exact sepJoin_ne_empty l hne hl (strEq_of_data this)

theorem buildPath_joinSegs (acc : List String) (a : String) (hacc : ∀ x ∈ acc, x ≠ "") :
    buildPath (joinSegs acc) a = joinSegs (acc ++ [a]) := by
  cases hq : acc with
  | nil => simp [buildPath, joinSegs, sepJoin]
  | cons x xs =>
    rw [← hq]
    have hne : joinSegs acc ≠ "/" := joinSegs_ne_root acc hacc (by simp [hq])
    have hl : acc ≠ [] := by simp [hq]
    unfold buildPath
    rw [if_neg hne]
    apply strEq_of_data
    have hs := congrArg String.data (sepJoin_append_single acc a hl)
    simp only [joinSegs, String.data_append] at hs ⊢
    simp [hs, List.append_assoc]

theorem inits_head_tail (l : List α) : l.inits = [] :: l.inits.drop 1 := by
  cases l with
  | nil => rfl
  | cons a t => rw [List.inits_cons]; rfl

theorem consultedFrom_closed (segs : List String) :
    ∀ acc : List String, (∀ x ∈ acc, x ≠ "") → (∀ x ∈ segs, x ≠ "") →
    consultedFrom (joinSegs acc) segs
      = (segs.inits.drop 1).map (fun l => joinSegs (acc ++ l)) := by
  induction segs with
  | nil => intro acc _ _; rfl
  | cons seg rest ih =>
    intro acc hacc hsegs
    have hseg : seg ≠ "" := hsegs seg (by simp)
    have hrest : ∀ x ∈ rest, x ≠ "" := fun x hx => hsegs x (by simp [hx])
    have hacc' : ∀ x ∈ acc ++ [seg], x ≠ "" := by
      intro x hx
      rcases List.mem_append.mp hx with h | h
      · exact hacc x h
      · simp at h; subst h; exact hseg
    have hstep : consultedFrom (joinSegs acc) (seg :: rest)
        = buildPath (joinSegs acc) seg
            :: consultedFrom (buildPath (joinSegs acc) seg) rest := by
      simp only [consultedFrom, if_neg hseg]
    rw [hstep, buildPath_joinSegs acc seg hacc, ih (acc ++ [seg]) hacc' hrest,
      List.inits_cons]
    simp only [List.drop_succ_cons, List.drop_zero]
    rw [inits_head_tail rest]
    have hfun : ((fun l => joinSegs (acc ++ l)) ∘ fun t : List String => seg :: t)
        = fun l : List String => joinSegs (acc ++ seg :: l) := rfl
    simp [List.append_assoc, hfun]

theorem consultedKeys_closed (path : String) :
    consultedKeys path = ((splitSegs path).inits.drop 1).map joinSegs := by
  rw [consultedKeys_eq_splitSegs]
  have hroot : ("/" : String) = joinSegs [] := rfl
  rw [hroot, consultedFrom_closed (splitSegs path) [] (by simp)
    (fun x hx => mem_splitSegs_ne_empty hx)]
  simp

theorem fppOverKeys_pure_iff (reg : Registry) (f : String → List DAVLock → Bool)
    (ks : List String) :
    (fppOverKeys reg (fun k locks (_ : Unit) => (f k locks, ())) ks ()).1 = true
      ↔ ∀ k ∈ ks, ∀ locks, regLookup reg k = Option.some locks → f k locks = true := by
  induction ks with
  | nil => simp [fppOverKeys]
  | cons k ks ih =>
    cases hlook : regLookup reg k with
    | none =>
      simp only [fppOverKeys, hlook]
      rw [ih]
      constructor
      · intro h k' hk' locks hl
        rcases List.mem_cons.mp hk' with rfl | hk'
        · rw [hlook] at hl; cases hl
        · exact h k' hk' locks hl
      · intro h k' hk' locks hl
        exact h k' (by simp [hk']) locks hl
    | some locks =>
      cases hf : f k locks with
      | true =>
        simp only [fppOverKeys, hlook, hf]
        rw [ih]
        constructor
        · intro h k' hk' locks' hl
          rcases List.mem_cons.mp hk' with rfl | hk'
          · rw [hlook] at hl; injection hl with hl; subst hl; exact hf
          · exact h k' hk' locks' hl
        · intro h k' hk' locks' hl
          exact h k' (by simp [hk']) locks' hl
      | false =>
        simp only [fppOverKeys, hlook, hf]
        constructor
        · intro h; cases h
        · intro h
          have := h k (by simp) locks hlook
          rw [hf] at this; cases this

theorem fppOverKeys_getLock (reg : Registry) (tok : String) (ks : List String) :
    (fppOverKeys reg (pathGetLockCb tok) ks Option.none).2
      = (walkLocks reg ks).find? (fun kl => kl.2.token = tok) := by
  induction ks with
  | nil => simp [fppOverKeys, walkLocks]
  | cons k ks ih =>
    cases hlook : regLookup reg k with
    | none =>
      simp only [fppOverKeys, hlook, walkLocks, List.flatMap_cons]
      simpa [walkLocks] using ih
    | some locks =>
      simp only [fppOverKeys, hlook, pathGetLockCb, walkLocks, List.flatMap_cons]
      rw [List.find?_append, List.find?_map]
      have hpred : ((fun kl : String × DAVLock => decide (kl.2.token = tok)) ∘
          (fun l => (k, l))) = (fun l : DAVLock => decide (l.token = tok)) := rfl
      rw [hpred]
      cases hfind : locks.find? (fun l => l.token = tok) with
      | none =>
        simp only [hfind, Option.map_none]
        simpa [walkLocks, Option.or] using ih
      | some l =>
        simp [hfind, Option.or]

theorem path_get_lock_eq_find (reg : Registry) (path tok : String) :
    path_get_lock reg path tok
      = (walkLocks reg (consultedKeys path)).find? (fun kl => kl.2.token = tok) := by
  unfold path_get_lock
  rw [foreach_eq_overKeys]
  exact fppOverKeys_getLock reg tok (consultedKeys path)

theorem regLookup_regModify (reg : Registry) (k k' : String)
    (f : List DAVLock → List DAVLock) :
    regLookup (regModify reg k f) k'
      = if k' = k then (regLookup reg k').map f else regLookup reg k' := by
  unfold regLookup regModify
  rw [List.find?_map]
  have hpred : ((fun e : String × List DAVLock => decide (e.1 = k')) ∘
      (fun e : String × List DAVLock => if e.1 = k then (e.1, f e.2) else e))
      = (fun e : String × List DAVLock => decide (e.1 = k')) := by
    funext e
    by_cases he : e.1 = k <;> simp [he]
  rw [hpred]
  cases hfind : reg.find? (fun e => e.1 = k') with
  | none => simp
  | some e =>
    have he' : e.1 = k' := by
      have := List.find?_some hfind
      simpa using this
    by_cases hk : k' = k
    · subst hk
      simp [he']
    · have : ¬ (e.1 = k) := by rw [he']; exact hk
      simp [this, hk]

theorem regLookup_append (reg reg' : Registry) (k : String) :
    regLookup (reg ++ reg') k
      = match regLookup reg k with
        | Option.some v => Option.some v
        | Option.none => regLookup reg' k := by
  unfold regLookup
  rw [List.find?_append]
  cases hfind : reg.find? (fun e => e.1 = k) <;> simp [Option.or]

/-! ## Claim C4 — ancestor walk ordering -/

/-- C4, counterexample.  The claim asserts that the walk consults the
path registry for `/`, `/a`, `/a/b`, … — the root first.  The root is in
fact never consulted: with a registry whose only entry is the key `/` and
a callback that would abort on any invocation, the walk over `/a`
completes without invoking the callback at all; and the consulted key
sequence of `/a/b` lacks the claimed leading `/`. -/
theorem c4_root_never_consulted :
    (foreach_parent_path
        [("/", [⟨"t", LockScopeType.exclusive, LockType.write, DepthType.zero,
                 Option.none, 0⟩])]
        "/a" (fun _ _ (_ : Unit) => (false, ())) ()).1 = true
    ∧ consultedKeys "/a/b" ≠ specConsultedKeys "/a/b" := by
  constructor
  · decide
  · decide

/-- C4, amended: the walk splits the path on `/`, discards empty
segments, and consults the registry for the joined non-empty prefixes
`/a`, `/a/b`, … in exactly that root-first order — the root `/` itself is
never consulted; the callback is invoked in that order for the keys
present in the registry and the walk aborts on the first `false` return
(the fold `fppOverKeys`); `path_get_lock` visits ancestors in the same
order (root-most first, target last) and returns the first lock whose
token matches. -/
theorem c4_walk_order :
    (∀ (σ : Type) (reg : Registry) (path : String)
       (cb : String → List DAVLock → σ → Bool × σ) (s : σ),
       foreach_parent_path reg path cb s = fppOverKeys reg cb (consultedKeys path) s)
    ∧ (∀ path : String,
       consultedKeys path = ((splitSegs path).inits.drop 1).map joinSegs)
    ∧ (∀ (reg : Registry) (path tok : String),
       path_get_lock reg path tok
         = (walkLocks reg (consultedKeys path)).find? (fun kl => kl.2.token = tok)) := by
  refine ⟨?_, ?_, ?_⟩
  · intro σ reg path cb s
    exact foreach_eq_overKeys reg cb path s
  · exact consultedKeys_closed
  · exact path_get_lock_eq_find

/-! ## Claim C1 — lock compatibility on attach -/

theorem check_lock_false_iff (lock : DAVLock) (locks : List DAVLock) :
    check_lock lock locks = false
      ↔ (∃ o ∈ locks, o.scope = LockScopeType.exclusive)
        ∨ (locks ≠ [] ∧ lock.scope = LockScopeType.exclusive) := by
  unfold check_lock
  by_cases h1 : locks.any (fun o => decide (o.scope = LockScopeType.exclusive)) = true
  · rw [if_pos h1]
    simp only [List.any_eq_true, decide_eq_true_eq] at h1
    simp [h1]
  · rw [if_neg h1]
    simp only [List.any_eq_true, decide_eq_true_eq] at h1
    push_neg at h1
    by_cases h2 : ¬ locks.isEmpty ∧ lock.scope = LockScopeType.exclusive
    · rw [if_pos h2]
      refine iff_of_true rfl (Or.inr ⟨?_, h2.2⟩)
      intro hnil
      exact h2.1 (by rw [hnil]; rfl)
    · rw [if_neg h2]
      refine iff_of_false (by simp) ?_
      push_neg at h2
      rintro (⟨o, ho, hos⟩ | ⟨hne, hexcl⟩)
      · exact (h1 o ho) hos
      · have hemp : ¬ (locks.isEmpty = false) := by
          intro hfalse
          have : ¬ locks.isEmpty := by simp [hfalse]
          exact (h2 this) hexcl
        have : locks.isEmpty = true := by
          cases h : locks.isEmpty with
          | true => rfl
          | false => exact absurd h hemp
        exact hne (List.isEmpty_iff.mp this)

theorem locksOk_nil : locksOk [] := by
  intro l hl
  cases hl

theorem locksOk_singleton (l : DAVLock) : locksOk [l] := by
  intro x hx _
  simp only [List.mem_singleton] at hx
  rw [hx]

theorem locksOk_erase (locks : List DAVLock) (x : DAVLock) (h : locksOk locks) :
    locksOk (locks.erase x) := by
  intro l hl hscope
  have hmem : l ∈ locks := List.mem_of_mem_erase hl
  have hsing := h l hmem hscope
  rw [hsing] at hl ⊢
  by_cases hx : l = x
  · subst hx
    simp at hl
  · have : (l == x) = false := by
      simp [hx]
    simp [List.erase_cons, this]

theorem locksOk_map (locks : List DAVLock) (f : DAVLock → DAVLock)
    (hf : ∀ x, (f x).scope = x.scope) (h : locksOk locks) : locksOk (locks.map f) := by
  intro l hl hscope
  obtain ⟨x, hx, rfl⟩ := List.mem_map.mp hl
  have hxs : x.scope = LockScopeType.exclusive := by rw [← hf x]; exact hscope
  have hsing := h x hx hxs
  rw [hsing]
  simp

theorem locksOk_append_check (locks : List DAVLock) (lock : DAVLock)
    (h : locksOk locks) (hc : check_lock lock locks = true) :
    locksOk (locks ++ [lock]) := by
  have hnot : ¬ ((∃ o ∈ locks, o.scope = LockScopeType.exclusive)
      ∨ (locks ≠ [] ∧ lock.scope = LockScopeType.exclusive)) := by
    intro hr
    have := (check_lock_false_iff lock locks).mpr hr
    rw [hc] at this
    cases this
  push_neg at hnot
  obtain ⟨hnoexcl, himp⟩ := hnot
  intro l hl hscope
  rcases List.mem_append.mp hl with h1 | h1
  · exact absurd hscope (hnoexcl l h1)
  · simp only [List.mem_singleton] at h1
    subst h1
    have hnil : locks = [] := by
      by_contra hne
      exact (himp hne) hscope

    subst hnil
    rfl

theorem get_path_fst (reg : Registry) (path : String) :
    (get_path reg path).1 = remove_trailing path '/' := by
  unfold get_path
  cases h : regLookup reg (remove_trailing path '/') <;> simp [h]

theorem regLookup_singleton (k k' : String) (v : List DAVLock) :
    regLookup [(k, v)] k' = if k' = k then Option.some v else Option.none := by
  unfold regLookup
  by_cases h : k = k'
  · subst h; simp
  · rw [List.find?_cons_of_neg]
    · simp [Ne.symm h]
    · simp [h]

theorem regLookup_get_path_self (reg : Registry) (path : String) :
    regLookup (get_path reg path).2 (remove_trailing path '/')
      = Option.some ((regLookup reg (remove_trailing path '/')).getD []) := by
  unfold get_path
  cases h : regLookup reg (remove_trailing path '/') with
  | some v => simp [h]
  | none =>
    simp only [h]
    rw [regLookup_append, h, regLookup_singleton]
    simp

theorem regLookup_get_path_other (reg : Registry) (path k : String)
    (hk : k ≠ remove_trailing path '/') :
    regLookup (get_path reg path).2 k = regLookup reg k := by
  unfold get_path
  cases h : regLookup reg (remove_trailing path '/') with
  | some v => simp [h]
  | none =>
    simp only [h]
    rw [regLookup_append, regLookup_singleton]
    cases hbase : regLookup reg k with
    | some v => simp
    | none => simp [hk]

theorem try_add_lock_result (reg : Registry) (path : String) (lock : DAVLock) :
    try_add_lock reg path lock
      = if (fppOverKeys reg (fun _ locks (_ : Unit) => (check_lock lock locks, ()))
              (consultedKeys path) ()).1
        then (true, regModify (get_path reg path).2 (remove_trailing path '/')
                (fun l => l ++ [lock]))
        else (false, reg) := by
  unfold try_add_lock
  rw [foreach_eq_overKeys]
  cases h : (fppOverKeys reg (fun _ locks (_ : Unit) => (check_lock lock locks, ()))
      (consultedKeys path) ()).1 <;>
    simp [h, get_path_fst]

theorem try_add_lock_false_iff (reg : Registry) (path : String) (lock : DAVLock) :
    (try_add_lock reg path lock).1 = false
      ↔ ∃ k ∈ consultedKeys path, ∃ locks,
          regLookup reg k = Option.some locks ∧ check_lock lock locks = false := by
  have hkey := fppOverKeys_pure_iff reg (fun _ locks => check_lock lock locks)
    (consultedKeys path)
  rw [try_add_lock_result]
  cases hc : (fppOverKeys reg (fun _ locks (_ : Unit) => (check_lock lock locks, ()))
      (consultedKeys path) ()).1 with
  | true =>
    rw [if_pos rfl]
    constructor
    · intro h
      exact absurd h (by simp)
    · rintro ⟨k, hk, locks, hlook, hcl⟩
      have hchk := hkey.mp hc k hk locks hlook
      rw [hcl] at hchk
      exact absurd hchk (by simp)
  | false =>
    rw [if_neg (by simp)]
    constructor
    · intro _
      by_contra hno
      push_neg at hno
      have hall : ∀ k ∈ consultedKeys path, ∀ locks,
          regLookup reg k = Option.some locks → check_lock lock locks = true := by
        intro k hk locks hl
        have hne := hno k hk locks hl
        cases h : check_lock lock locks with
        | true => rfl
        | false => exact absurd h hne
      have := hkey.mpr hall
      rw [hc] at this
      cases this
    · intro _
      rfl

theorem try_add_lock_reject_unchanged (reg : Registry) (path : String) (lock : DAVLock)
    (h : (try_add_lock reg path lock).1 = false) :
    (try_add_lock reg path lock).2 = reg := by
  rw [try_add_lock_result] at h ⊢
  cases hc : (fppOverKeys reg (fun _ locks (_ : Unit) => (check_lock lock locks, ()))
      (consultedKeys path) ()).1 with
  | true =>
    rw [hc, if_pos rfl] at h
    exact absurd h (by simp)
  | false =>
    rw [if_neg (by simp)]

theorem try_add_lock_attach (reg : Registry) (path : String) (lock : DAVLock)
    (h : (try_add_lock reg path lock).1 = true) :
    regLookup (try_add_lock reg path lock).2 (remove_trailing path '/')
      = Option.some (((regLookup reg (remove_trailing path '/')).getD []) ++ [lock])
    ∧ ∀ k, k ≠ remove_trailing path '/' →
        regLookup (try_add_lock reg path lock).2 k = regLookup reg k := by
  rw [try_add_lock_result] at h ⊢
  cases hc : (fppOverKeys reg (fun _ locks (_ : Unit) => (check_lock lock locks, ()))
      (consultedKeys path) ()).1 with
  | false =>
    rw [hc, if_neg (by simp)] at h
    exact absurd h (by simp)
  | true =>
    rw [if_pos rfl]
    constructor
    · rw [regLookup_regModify, if_pos rfl, regLookup_get_path_self]
      rfl
    · intro k hk
      rw [regLookup_regModify, if_neg hk, regLookup_get_path_other reg path k hk]

theorem regInv_get_path (reg : Registry) (path : String) (h : regInv reg) :
    regInv (get_path reg path).2 := by
  intro k hk locks hlook
  by_cases hkey : k = remove_trailing path '/'
  · subst hkey
    rw [regLookup_get_path_self] at hlook
    injection hlook with hlock
    cases hbase : regLookup reg (remove_trailing path '/') with
    | some v =>
      rw [hbase] at hlock
      simp only [Option.getD_some] at hlock
      rw [← hlock]
      exact h _ hk v hbase
    | none =>
      rw [hbase] at hlock
      simp only [Option.getD_none] at hlock
      rw [← hlock]
      exact locksOk_nil
  · rw [regLookup_get_path_other reg path k hkey] at hlook
    exact h k hk locks hlook

theorem regInv_try_add_lock (reg : Registry) (path : String) (lock : DAVLock)
    (h : regInv reg) : regInv (try_add_lock reg path lock).2 := by
  rw [try_add_lock_result]
  cases hc : (fppOverKeys reg (fun _ locks (_ : Unit) => (check_lock lock locks, ()))
      (consultedKeys path) ()).1 with
  | false =>
    rw [if_neg (by simp)]
    exact h
  | true =>
    rw [if_pos rfl]
    intro k hk locks hlook
    simp only [Prod.snd] at hlook
    rw [regLookup_regModify] at hlook
    by_cases hkey : k = remove_trailing path '/'
    · rw [if_pos hkey] at hlook
      rw [hkey] at hlook
      rw [regLookup_get_path_self] at hlook
      simp only [Option.map_some'] at hlook
      injection hlook with hlock
      cases hbase : regLookup reg (remove_trailing path '/') with
      | none =>
        rw [hbase] at hlock
        simp only [Option.getD_none, List.nil_append] at hlock
        rw [← hlock]
        exact locksOk_singleton lock
      | some old =>
        rw [hbase] at hlock
        simp only [Option.getD_some] at hlock
        have hmem : remove_trailing path '/' ∈ consultedKeys path := by
          rw [← consultedKeys_remove_trailing path]
          rw [hkey] at hk
          exact hk
        have hchk : check_lock lock old = true :=
          (fppOverKeys_pure_iff reg (fun _ locks => check_lock lock locks)
            (consultedKeys path)).mp hc (remove_trailing path '/') hmem old hbase
        have hold : locksOk old := h (remove_trailing path '/') (hkey ▸ hk) old hbase
        rw [← hlock]
        exact locksOk_append_check old lock hold hchk
    · rw [if_neg hkey] at hlook
      rw [regLookup_get_path_other reg path k hkey] at hlook
      exact h k hk locks hlook

theorem regInv_method_lock_attach (reg : Registry) (path : String) (lock : DAVLock)
    (h : regInv reg) : regInv (method_lock_attach reg path lock).2 := by
  unfold method_lock_attach
  by_cases hlen : lock.token.data.length = 45
  · rw [if_pos hlen]
    exact regInv_try_add_lock _ _ _ (regInv_get_path reg path h)
  · rw [if_neg hlen]
    exact h

theorem regInv_dav_lock_free (reg : Registry) (k : String) (lock : DAVLock)
    (h : regInv reg) : regInv (dav_lock_free reg k lock) := by
  intro k' hk' locks hlook
  unfold dav_lock_free at hlook
  rw [regLookup_regModify] at hlook
  by_cases hkey : k' = k
  · rw [if_pos hkey] at hlook
    cases hbase : regLookup reg k' with
    | none => rw [hbase] at hlook; cases hlook
    | some old =>
      rw [hbase] at hlook
      simp only [Option.map_some'] at hlook
      injection hlook with hlock
      rw [← hlock]
      exact locksOk_erase old lock (h k' hk' old hbase)
  · rw [if_neg hkey] at hlook
    exact h k' hk' locks hlook

theorem regInv_method_unlock (reg : Registry) (path : String) (hdr : Option String)
    (h : regInv reg) : regInv (method_unlock reg path hdr).2 := by
  cases hrb : remove_brackets hdr with
  | none =>
    have hred : method_unlock reg path hdr = (400, reg) := by
      unfold method_unlock
      rw [hrb]
    rw [hred]
    exact h
  | some tok =>
    have hred : method_unlock reg path hdr
        = match path_get_lock reg path tok with
          | Option.none => (409, reg)
          | Option.some kl => (204, dav_lock_free reg kl.1 kl.2) := by
      unfold method_unlock
      rw [hrb]
    rw [hred]
    cases hgl : path_get_lock reg path tok with
    | none => exact h
    | some kl => exact regInv_dav_lock_free reg kl.1 kl.2 h

theorem regInv_lock_refresh (reg : Registry) (path token : String) (now timeout : Nat)
    (h : regInv reg) : regInv (lock_refresh reg path token now timeout) := by
  unfold lock_refresh
  cases hgl : path_get_lock reg path token with
  | none => exact h
  | some kl =>
    intro k' hk' locks hlook
    rw [regLookup_regModify] at hlook
    by_cases hkey : k' = kl.1
    · rw [if_pos hkey] at hlook
      cases hbase : regLookup reg k' with
      | none => rw [hbase] at hlook; cases hlook
      | some old =>
        rw [hbase] at hlook
        simp only [Option.map_some'] at hlook
        injection hlook with hlock
        rw [← hlock]
        refine locksOk_map old _ ?_ (h k' hk' old hbase)
        intro x
        by_cases hx : x = kl.2 <;> simp [hx, dav_lock_refresh_timeout]
    · rw [if_neg hkey] at hlook
      exact h k' hk' locks hlook

theorem reach_regInv (reg : Registry) (h : Reach reg) : regInv reg := by
  induction h with
  | empty =>
    intro k _ locks hlook
    simp [regLookup] at hlook
  | attach path lock _ ih => exact regInv_method_lock_attach _ path lock ih
  | unlock path hdr _ ih => exact regInv_method_unlock _ path hdr ih
  | refresh path token now timeout _ ih => exact regInv_lock_refresh _ path token now timeout ih

/-- C1, counterexample.  As stated, the claim requires `try_add_lock` to
reject when the path itself holds an exclusive lock, and concludes that
in every reachable state an exclusive lock never coexists with another
lock on the same path.  Both parts fail at the root: a LOCK of `/`
stores the lock under the key `""` (trailing slashes are removed by
`get_path`), which the ancestor walk never consults, so a second
exclusive LOCK of `/` is accepted and the reachable registry ends up
with two exclusive locks on the same path. -/
theorem c1_root_exclusive_not_rejected :
    (method_lock_attach (method_lock_attach [] "/" exclLockA).2 "/" exclLockB).1 = true
    ∧ Reach (method_lock_attach (method_lock_attach [] "/" exclLockA).2 "/" exclLockB).2
    ∧ regLookup (method_lock_attach (method_lock_attach [] "/" exclLockA).2 "/" exclLockB).2
        (remove_trailing "/" '/') = Option.some [exclLockA, exclLockB]
    ∧ ¬ locksOk [exclLockA, exclLockB] := by
  refine ⟨by decide, ?_, by decide, ?_⟩
  · exact Reach.attach "/" exclLockB (Reach.attach "/" exclLockA Reach.empty)
  · intro hok
    exact absurd (hok exclLockA (by decide) (by decide)) (by decide)

/-- C1, amended: `try_add_lock (server, path, lock)` rejects (returns
`false`, leaving the registry unchanged) exactly when some *consulted*
ancestor `p` of `path` — the non-empty normalized prefixes `/a`, `/a/b`,
…, which include the normalized path itself but never the root — holds an
exclusive lock, or the new lock is exclusive and such a `p` holds any
lock; in all other cases it attaches the lock under the normalized path
and returns `true`.  Consequently, for every reachable lock-manager
state, on every canonical (walk-visible) path an exclusive lock never
coexists with any other lock, and shared locks coexist only with shared
locks. -/
theorem c1_lock_compat :
    (∀ (reg : Registry) (path : String) (lock : DAVLock),
      ((try_add_lock reg path lock).1 = false
        ↔ ∃ k ∈ consultedKeys path, ∃ locks, regLookup reg k = Option.some locks
            ∧ ((∃ o ∈ locks, o.scope = LockScopeType.exclusive)
               ∨ (locks ≠ [] ∧ lock.scope = LockScopeType.exclusive)))
      ∧ ((try_add_lock reg path lock).1 = false → (try_add_lock reg path lock).2 = reg)
      ∧ ((try_add_lock reg path lock).1 = true →
           regLookup (try_add_lock reg path lock).2 (remove_trailing path '/')
             = Option.some (((regLookup reg (remove_trailing path '/')).getD []) ++ [lock])
           ∧ ∀ k, k ≠ remove_trailing path '/' →
               regLookup (try_add_lock reg path lock).2 k = regLookup reg k))
    ∧ (∀ reg : Registry, Reach reg → regInv reg) := by
  constructor
  · intro reg path lock
    refine ⟨?_, try_add_lock_reject_unchanged reg path lock, try_add_lock_attach reg path lock⟩
    rw [try_add_lock_false_iff]
    constructor
    · rintro ⟨k, hk, locks, hlook, hchk⟩
      exact ⟨k, hk, locks, hlook, (check_lock_false_iff lock locks).mp hchk⟩
    · rintro ⟨k, hk, locks, hlook, hcond⟩
      exact ⟨k, hk, locks, hlook, (check_lock_false_iff lock locks).mpr hcond⟩
  · exact reach_regInv

/-- C1, witness: the amended theorem applied at concrete inputs — a
shared lock attached at `/a` yields a reachable registry satisfying the
canonical-key invariant, and attaching an exclusive lock over an existing
exclusive lock on `/a` is rejected. -/
theorem c1_lock_compat_witness :
    regInv (method_lock_attach [] "/a" sharedLockA).2
    ∧ (try_add_lock [("/a", [exclLockA])] "/a" exclLockB).1 = false := by
  constructor
  · exact c1_lock_compat.2 _ (Reach.attach "/a" sharedLockA Reach.empty)
  · refine (c1_lock_compat.1 [("/a", [exclLockA])] "/a" exclLockB).1.mpr ?_
    refine ⟨"/a", by decide, [exclLockA], by decide, Or.inl ⟨exclLockA, by decide, by decide⟩⟩

/-! ## Claim C3 — UNLOCK semantics -/

theorem remove_brackets_wrap (t : String) :
    remove_brackets (Option.some ("<" ++ t ++ ">")) = Option.some t := by
  have hdata : ("<" ++ t ++ ">").data = '<' :: (t.data ++ ['>']) := by
    simp [String.data_append]
  show (if 2 ≤ ("<" ++ t ++ ">").data.length
        ∧ ("<" ++ t ++ ">").data.head? = Option.some '<'
        ∧ ("<" ++ t ++ ">").data.getLast? = Option.some '>'
      then Option.some (⟨("<" ++ t ++ ">").data.drop 1 |>.dropLast⟩ : String)
      else Option.none) = Option.some t
  rw [hdata]
  rw [if_pos ⟨by simp, rfl, by rw [← List.cons_append, List.getLast?_concat]⟩]
  simp only [List.drop_succ_cons, List.drop_zero, List.dropLast_concat]

theorem find?_unique {p : α → Bool} {x : α} :
    ∀ l : List α, (∀ y ∈ l, p y = true → y = x) → x ∈ l → p x = true →
    l.find? p = Option.some x := by
  intro l
  induction l with
  | nil => intro _ hx; cases hx
  | cons a t ih =>
    intro huniq hx hp
    cases hpa : p a with
    | true =>
      rw [List.find?_cons_of_pos _ hpa]
      rw [huniq a (by simp) hpa]
    | false =>
      rw [List.find?_cons_of_neg _ (by simp [hpa])]
      have hxt : x ∈ t := by
        rcases List.mem_cons.mp hx with rfl | hxt
        · rw [hp] at hpa; cases hpa
        · exact hxt
      exact ih (fun y hy hpy => huniq y (by simp [hy]) hpy) hxt hp

theorem mem_walkLocks {reg : Registry} {ks : List String} {y : String × DAVLock} :
    y ∈ walkLocks reg ks
      ↔ ∃ locks, y.1 ∈ ks ∧ regLookup reg y.1 = Option.some locks ∧ y.2 ∈ locks := by
  unfold walkLocks
  rw [List.mem_flatMap]
  constructor
  · rintro ⟨k, hk, hy⟩
    cases hlook : regLookup reg k with
    | none => rw [hlook] at hy; cases hy
    | some locks =>
      rw [hlook] at hy
      obtain ⟨l, hl, rfl⟩ := List.mem_map.mp hy
      exact ⟨locks, hk, hlook, hl⟩
  · rintro ⟨locks, hk, hlook, hl⟩
    refine ⟨y.1, hk, ?_⟩
    rw [hlook]
    exact List.mem_map.mpr ⟨y.2, hl, rfl⟩

theorem tokFresh_lookup {reg : Registry} {tok : String} (h : tokFresh reg tok)
    {k : String} {v : List DAVLock} (hlook : regLookup reg k = Option.some v) :
    ∀ l ∈ v, l.token ≠ tok := by
  intro l hl
  unfold regLookup at hlook
  cases hfind : reg.find? (fun e => e.1 = k) with
  | none => rw [hfind] at hlook; cases hlook
  | some e =>
    rw [hfind] at hlook
    injection hlook with he
    have hmem := List.mem_of_find?_eq_some hfind
    exact h e hmem l (by rw [he]; exact hl)

theorem get_path_snd (reg : Registry) (path : String) :
    (get_path reg path).2 = reg
    ∨ (get_path reg path).2 = reg ++ [(remove_trailing path '/', [])] := by
  unfold get_path
  cases h : regLookup reg (remove_trailing path '/') with
  | some v => left; simp [h]
  | none => right; simp [h]

theorem tokFresh_get_path {reg : Registry} {tok : String} (h : tokFresh reg tok)
    (path : String) : tokFresh (get_path reg path).2 tok := by
  rcases get_path_snd reg path with heq | heq <;> rw [heq]
  · exact h
  · intro e he l hl
    rcases List.mem_append.mp he with he | he
    · exact h e he l hl
    · simp only [List.mem_singleton] at he
      subst he
      cases hl

/-- C3, counterexample.  The claim concludes that a depth-0 `LOCK` on `p`
followed by `UNLOCK p` with the returned token answers `204`.  For
`p = "/"` the `LOCK` succeeds (attaching the lock under key `""`), but
`UNLOCK /` answers `409 Conflict`: `path_get_lock` walks the consulted
keys of `/`, which are none, and never finds the lock. -/
theorem c3_root_unlock_conflict :
    (method_lock_attach [] "/" exclLockA).1 = true
    ∧ (method_unlock (method_lock_attach [] "/" exclLockA).2 "/"
        (Option.some ("<" ++ tokenA ++ ">"))).1 = 409 := by
  constructor
  · decide
  · decide

/-- C3, amended: `UNLOCK` takes the `Lock-Token` header stripped of angle
brackets and returns `400` when the header is missing or malformed, `409
Conflict` when no live lock with that token exists on `p` or a consulted
ancestor, and otherwise frees the lock and returns `204 No Content`.
Hence for every path `p` whose normalized form is among its own consulted
ancestors (any path with at least one non-empty segment — the root `/` is
excluded) and every fresh token `t`, if a depth-0 `LOCK` on `p` succeeds
with token `t`, an immediate `UNLOCK` of `p` with `t` returns `204` and a
second `UNLOCK` of `p` with `t` returns `409`. -/
theorem c3_unlock_semantics :
    (∀ (reg : Registry) (path : String),
       method_unlock reg path Option.none = (400, reg))
    ∧ (∀ (reg : Registry) (path : String) (hdr : Option String),
       remove_brackets hdr = Option.none → method_unlock reg path hdr = (400, reg))
    ∧ (∀ (reg : Registry) (path t : String),
       path_get_lock reg path t = Option.none →
       method_unlock reg path (Option.some ("<" ++ t ++ ">")) = (409, reg))
    ∧ (∀ (reg : Registry) (path : String) (lock : DAVLock),
       lock.token.data.length = 45 →
       remove_trailing path '/' ∈ consultedKeys path →
       tokFresh reg lock.token →
       (method_lock_attach reg path lock).1 = true →
       (method_unlock (method_lock_attach reg path lock).2 path
           (Option.some ("<" ++ lock.token ++ ">"))).1 = 204
       ∧ (method_unlock
            (method_unlock (method_lock_attach reg path lock).2 path
              (Option.some ("<" ++ lock.token ++ ">"))).2 path
            (Option.some ("<" ++ lock.token ++ ">"))).1 = 409) := by
  refine ⟨?_, ?_, ?_, ?_⟩
  · intro reg path
    rfl
  · intro reg path hdr h
    unfold method_unlock
    rw [h]
  · intro reg path t h
    have hred : method_unlock reg path (Option.some ("<" ++ t ++ ">"))
        = match path_get_lock reg path t with
          | Option.none => (409, reg)
          | Option.some kl => (204, dav_lock_free reg kl.1 kl.2) := by
      unfold method_unlock
      rw [remove_brackets_wrap]
    rw [hred, h]
  · intro reg path lock hlen hnorm hfresh hsucc
    -- Unpack the attach: under the length guard, `method_lock_attach` is
    -- `try_add_lock` on the registry extended by `get_path`.
    have hred : method_lock_attach reg path lock
        = try_add_lock (get_path reg path).2 path lock := by
      unfold method_lock_attach
      rw [if_pos hlen]
    rw [hred] at hsucc ⊢
    set reg1 := (get_path reg path).2 with hreg1
    set nk := remove_trailing path '/' with hnk
    have hatt := try_add_lock_attach reg1 path lock hsucc
    set reg2 := (try_add_lock reg1 path lock).2 with hreg2
    have hfresh1 : tokFresh reg1 lock.token := tokFresh_get_path hfresh path
    -- Every token match in the walk over `reg2` is our lock at `nk`.
    have hbase : regLookup reg1 nk = Option.some ((regLookup reg nk).getD []) :=
      regLookup_get_path_self reg path
    have hatt1 : regLookup reg2 nk
        = Option.some ((regLookup reg nk).getD [] ++ [lock]) := by
      rw [hatt.1, hbase]
      rfl
    have hbase_fresh : ∀ l ∈ (regLookup reg nk).getD [], l.token ≠ lock.token := by
      cases hb : regLookup reg nk with
      | none =>
        intro l hl
        simp at hl
      | some v =>
        intro l hl
        simp only [Option.getD_some] at hl
        exact tokFresh_lookup hfresh hb l hl
    have huniq : ∀ y ∈ walkLocks reg2 (consultedKeys path),
        (decide (y.2.token = lock.token)) = true → y = (nk, lock) := by
      intro y hy hp
      rw [decide_eq_true_eq] at hp
      obtain ⟨locks, hyk, hylook, hyl⟩ := mem_walkLocks.mp hy
      by_cases hk : y.1 = nk
      · rw [hk, hatt1] at hylook
        injection hylook with hlocks
        rw [← hlocks] at hyl
        rcases List.mem_append.mp hyl with hmem | hmem
        · exact absurd hp (hbase_fresh y.2 hmem)
        · simp only [List.mem_singleton] at hmem
          rw [Prod.ext_iff]
          exact ⟨hk, hmem⟩
      · rw [hatt.2 y.1 hk] at hylook
        have := tokFresh_lookup hfresh1 hylook y.2 hyl
        exact absurd hp this
    have hmem : (nk, lock) ∈ walkLocks reg2 (consultedKeys path) := by
      rw [mem_walkLocks]
      exact ⟨(regLookup reg nk).getD [] ++ [lock], hnorm, hatt1,
        by simp⟩
    have hget : path_get_lock reg2 path lock.token = Option.some (nk, lock) := by
      rw [path_get_lock_eq_find]
      exact find?_unique _ huniq hmem (by simp)
    -- First UNLOCK: 204, erasing the lock.
    have hun1 : method_unlock reg2 path (Option.some ("<" ++ lock.token ++ ">"))
        = (204, dav_lock_free reg2 nk lock) := by
      have hr : method_unlock reg2 path (Option.some ("<" ++ lock.token ++ ">"))
          = match path_get_lock reg2 path lock.token with
            | Option.none => (409, reg2)
            | Option.some kl => (204, dav_lock_free reg2 kl.1 kl.2) := by
        unfold method_unlock
        rw [remove_brackets_wrap]
      rw [hr, hget]
    refine ⟨by rw [hun1], ?_⟩
    rw [hun1]
    -- After the erase, no lock with the token remains anywhere the walk sees.
    have hlock_notin : lock ∉ (regLookup reg nk).getD [] := by
      intro hmem'
      exact hbase_fresh lock hmem' rfl
    have herase : regLookup (dav_lock_free reg2 nk lock) nk
        = Option.some ((regLookup reg nk).getD []) := by
      unfold dav_lock_free
      rw [regLookup_regModify, if_pos rfl, hatt1]
      simp only [Option.map_some']
      rw [List.erase_append_right _ hlock_notin]
      simp [List.erase_cons_head]
    have herase_other : ∀ k, k ≠ nk →
        regLookup (dav_lock_free reg2 nk lock) k = regLookup reg1 k := by
      intro k hk
      unfold dav_lock_free
      rw [regLookup_regModify, if_neg hk]
      exact hatt.2 k hk
    have hnone : path_get_lock (dav_lock_free reg2 nk lock) path lock.token
        = Option.none := by
      rw [path_get_lock_eq_find]
      rw [List.find?_eq_none]
      intro y hy
      obtain ⟨locks, hyk, hylook, hyl⟩ := mem_walkLocks.mp hy
      by_cases hk : y.1 = nk
      · rw [hk, herase] at hylook
        injection hylook with hlocks
        rw [← hlocks] at hyl
        simp only [decide_eq_true_eq]
        exact hbase_fresh y.2 hyl
      · rw [herase_other y.1 hk] at hylook
        simp only [decide_eq_true_eq]
        exact tokFresh_lookup hfresh1 hylook y.2 hyl
    have hr2 : method_unlock (dav_lock_free reg2 nk lock) path
          (Option.some ("<" ++ lock.token ++ ">"))
        = match path_get_lock (dav_lock_free reg2 nk lock) path lock.token with
          | Option.none => (409, dav_lock_free reg2 nk lock)
          | Option.some kl => (204, dav_lock_free (dav_lock_free reg2 nk lock) kl.1 kl.2) := by
      unfold method_unlock
      rw [remove_brackets_wrap]
    rw [hr2, hnone]

/-- C3, witness: the amended round trip at `p = "/a"` from the empty
registry — the `LOCK` succeeds, the first `UNLOCK` answers `204`, the
second `409`; and the `409`/`400` clauses at concrete inputs. -/
theorem c3_unlock_semantics_witness :
    ((method_unlock (method_lock_attach [] "/a" exclLockA).2 "/a"
        (Option.some ("<" ++ tokenA ++ ">"))).1 = 204
      ∧ (method_unlock
          (method_unlock (method_lock_attach [] "/a" exclLockA).2 "/a"
            (Option.some ("<" ++ tokenA ++ ">"))).2 "/a"
          (Option.some ("<" ++ tokenA ++ ">"))).1 = 409)
    ∧ method_unlock [] "/a" Option.none = (400, [])
    ∧ method_unlock [] "/a" (Option.some "bad") = (400, [])
    ∧ method_unlock [] "/a" (Option.some ("<" ++ tokenB ++ ">")) = (409, []) := by
  refine ⟨?_, ?_, ?_, ?_⟩
  · have h4 := c3_unlock_semantics.2.2.2 [] "/a" exclLockA (by decide) (by decide)
      (by intro e he; cases he) (by decide)
    exact h4
  · exact c3_unlock_semantics.1 [] "/a"
  · exact c3_unlock_semantics.2.1 [] "/a" (Option.some "bad") (by decide)
  · exact c3_unlock_semantics.2.2.1 [] "/a" tokenB (by decide)

/-! ## Claim C2 — `If:` header verdict -/

/-- C2, counterexample.  The claim asserts the evaluator returns `200 OK`
whenever the `If:` expression evaluates true, reserving `423 Locked` for
requests without a header.  With an exclusive lock on `/a` and the header
`(Not <DAV:no-lock>)` — which evaluates true — a non-COPY request for
`/a` is nevertheless answered `423`: the final other-locks check also
runs in the header-present case, and the lock's token was not
submitted. -/
theorem c2_true_expression_locked :
    eval_if [("/a", [exclLockA])] (fun _ => Option.none) 10
        { cur := "(Not <DAV:no-lock>)".data, path := "/a", locks := [] }
      = Option.some (true, { cur := [], path := "/a", locks := [("/a", "DAV:no-lock")] })
    ∧ phodav_check_if [("/a", [exclLockA])] (fun _ => Option.none) false "/a"
        (Option.some "(Not <DAV:no-lock>)") 10
      = Option.some (423, [("/a", "DAV:no-lock")]) := by
  constructor
  · decide
  · decide

/-- C2, amended: the evaluator returns `200 OK` when the `If:` expression
(disjunction of lists, conjunction within a list, `Not` negating a
condition, token `DAV:no-lock` always failing) evaluates true *and* —
unless the request is a COPY — every live lock on the request path or an
ancestor was submitted; `412 Precondition Failed` when the header was
present and evaluated false; and `423 Locked` when the expression
evaluated true (or the header was absent) but the request path or a
consulted ancestor carries a live lock whose token was not submitted —
with a COPY request bypassing this final lock check for its source. -/
theorem c2_verdict :
    (∀ (reg : Registry) (etags : EtagOracle) (isCopy : Bool) (path : String) (fuel : Nat),
       phodav_check_if reg etags isCopy path Option.none fuel
         = Option.some
             (if !isCopy && path_has_other_locks reg path [] then 423 else 200, []))
    ∧ (∀ (reg : Registry) (etags : EtagOracle) (isCopy : Bool) (path s : String)
         (fuel : Nat) (st' : IfState),
       eval_if reg etags fuel { cur := s.data, path := path, locks := [] }
           = Option.some (false, st') →
       phodav_check_if reg etags isCopy path (Option.some s) fuel = Option.some (412, []))
    ∧ (∀ (reg : Registry) (etags : EtagOracle) (isCopy : Bool) (path s : String)
         (fuel : Nat) (st' : IfState),
       eval_if reg etags fuel { cur := s.data, path := path, locks := [] }
           = Option.some (true, st') →
       phodav_check_if reg etags isCopy path (Option.some s) fuel
         = Option.some
             (if !isCopy && path_has_other_locks reg path st'.locks then 423 else 200,
              st'.locks))
    ∧ (∀ (reg : Registry) (path : String), check_token reg path "DAV:no-lock" = false) := by
  refine ⟨?_, ?_, ?_, ?_⟩
  · intro reg etags isCopy path fuel
    rfl
  · intro reg etags isCopy path s fuel st' h
    have hred : phodav_check_if reg etags isCopy path (Option.some s) fuel
        = match eval_if reg etags fuel { cur := s.data, path := path, locks := [] } with
          | Option.none => Option.none
          | Option.some (true, st) =>
            Option.some
              (if !isCopy && path_has_other_locks reg path st.locks then 423 else 200,
               st.locks)
          | Option.some (false, _) => Option.some (412, []) := by
      unfold phodav_check_if
      rfl
    rw [hred, h]
  · intro reg etags isCopy path s fuel st' h
    have hred : phodav_check_if reg etags isCopy path (Option.some s) fuel
        = match eval_if reg etags fuel { cur := s.data, path := path, locks := [] } with
          | Option.none => Option.none
          | Option.some (true, st) =>
            Option.some
              (if !isCopy && path_has_other_locks reg path st.locks then 423 else 200,
               st.locks)
          | Option.some (false, _) => Option.some (412, []) := by
      unfold phodav_check_if
      rfl
    rw [hred, h]
  · intro reg path
    rfl

/-- C2, witness: the amended verdict applied at concrete inputs — an
absent header over a locked path gives `423`; a failing header gives
`412`; a true header submitting the lock's token gives `200`. -/
theorem c2_verdict_witness :
    phodav_check_if [("/a", [exclLockA])] (fun _ => Option.none) false "/a"
        Option.none 10 = Option.some (423, [])
    ∧ phodav_check_if [("/a", [exclLockA])] (fun _ => Option.none) false "/a"
        (Option.some "(<DAV:no-lock>)") 10 = Option.some (412, [])
    ∧ phodav_check_if [("/a", [exclLockA])] (fun _ => Option.none) false "/a"
        (Option.some ("(<" ++ tokenA ++ ">)")) 10
      = Option.some (200, [("/a", tokenA)]) := by
  refine ⟨?_, ?_, ?_⟩
  · have h := c2_verdict.1 [("/a", [exclLockA])] (fun _ => Option.none) false "/a" 10
    rw [h]
    decide
  · exact c2_verdict.2.1 [("/a", [exclLockA])] (fun _ => Option.none) false "/a"
      "(<DAV:no-lock>)" 10
      { cur := [], path := "/a", locks := [("/a", "DAV:no-lock")] } (by decide)
  · have h := c2_verdict.2.2.1 [("/a", [exclLockA])] (fun _ => Option.none) false "/a"
      ("(<" ++ tokenA ++ ">)") 10
      { cur := [], path := "/a", locks := [("/a", tokenA)] } (by decide)
    rw [h]
    decide

/-! ## Claim C10 — submitted-token accumulation

The lemmas below show that the parser primitives touch only the cursor,
and that every evaluator stage at most appends to the submitted list. -/

theorem locksExtend_refl (st : IfState) : locksExtend st st :=
  ⟨[], by simp⟩

theorem locksExtend_of_eq {st st' : IfState} (h : st'.locks = st.locks) :
    locksExtend st st' :=
  ⟨[], by simp [h]⟩

theorem locksExtend_trans {a b c : IfState} (h1 : locksExtend a b)
    (h2 : locksExtend b c) : locksExtend a c := by
  obtain ⟨L1, hL1⟩ := h1
  obtain ⟨L2, hL2⟩ := h2
  exact ⟨L1 ++ L2, by rw [hL2, hL1, List.append_assoc]⟩

theorem eat_whitespaces_snd (st : IfState) :
    (eat_whitespaces st).2 = { st with cur := st.cur.dropWhile isIfSpace } := rfl

theorem next_token_snd (st : IfState) (tok : String) :
    (next_token st tok).2 = { st with cur := st.cur.dropWhile isIfSpace } := rfl

theorem accept_token_state (st : IfState) (tok : String) :
    ((accept_token st tok).2).path = st.path ∧ ((accept_token st tok).2).locks = st.locks := by
  unfold accept_token next_token eat_whitespaces
  cases htok : tok.data.isPrefixOf (st.cur.dropWhile isIfSpace) <;> simp [htok]

theorem accept_ref_state (st : IfState) :
    ((accept_ref st).2).path = st.path ∧ ((accept_ref st).2).locks = st.locks := by
  unfold accept_ref
  split
  next st1 heq =>
    have hat := accept_token_state st "<"
    rw [heq] at hat
    simpa using hat
  next st1 heq =>
    have hat := accept_token_state st "<"
    rw [heq] at hat
    split
    next ur heq2 => simpa using hat
    next heq2 => simpa using hat

theorem accept_etag_state (st : IfState) :
    ((accept_etag st).2).path = st.path ∧ ((accept_etag st).2).locks = st.locks := by
  unfold accept_etag
  split
  next st1 heq =>
    have h1 := accept_token_state st "["
    rw [heq] at h1
    simpa using h1
  next st1 heq =>
    have h1 := accept_token_state st "["
    rw [heq] at h1
    simp only [] at h1
    split
    next st2 heq2 =>
      have h2 := accept_token_state st1 "\""
      rw [heq2] at h2
      simp only [] at h2
      exact ⟨h2.1.trans h1.1, h2.2.trans h1.2⟩
    next st2 heq2 =>
      have h2 := accept_token_state st1 "\""
      rw [heq2] at h2
      simp only [] at h2
      dsimp only
      split
      next st4 heq3 =>
        have h3 := accept_token_state { st2 with cur := (etagChars st2.cur).2 } "\""
        rw [heq3] at h3
        simp only [] at h3
        exact ⟨h3.1.trans (h2.1.trans h1.1), h3.2.trans (h2.2.trans h1.2)⟩
      next st4 heq3 =>
        have h3 := accept_token_state { st2 with cur := (etagChars st2.cur).2 } "\""
        rw [heq3] at h3
        simp only [] at h3
        split
        next st5 heq4 =>
          have h4 := accept_token_state st4 "]"
          rw [heq4] at h4
          simp only [] at h4
          exact ⟨h4.1.trans (h3.1.trans (h2.1.trans h1.1)),
                 h4.2.trans (h3.2.trans (h2.2.trans h1.2))⟩
        next st5 heq4 =>
          have h4 := accept_token_state st4 "]"
          rw [heq4] at h4
          simp only [] at h4
          exact ⟨h4.1.trans (h3.1.trans (h2.1.trans h1.1)),
                 h4.2.trans (h3.2.trans (h2.2.trans h1.2))⟩

theorem eval_if_condition_state (reg : Registry) (etags : EtagOracle) (st : IfState) :
    ((eval_if_condition reg etags st).2).path = st.path
    ∧ locksExtend st (eval_if_condition reg etags st).2 := by
  unfold eval_if_condition
  split
  next st1 heq =>
    have h1 : st1 = { st with cur := st.cur.dropWhile isIfSpace } := by
      have := next_token_snd st "<"
      rw [heq] at this
      exact this
    split
    next token st2 heq2 =>
      have h2 := accept_ref_state st1
      rw [heq2] at h2
      simp only [] at h2
      constructor
      · simp [h2.1, h1]
      · exact ⟨[lock_submitted_new st2.path token], by simp [h2.2, h1]⟩
    next st2 heq2 =>
      have h2 := accept_ref_state st1
      rw [heq2] at h2
      simp only [] at h2
      constructor
      · simp [h2.1, h1]
      · exact locksExtend_of_eq (by simp [h2.2, h1])
  next st1 heq =>
    have h1 : st1 = { st with cur := st.cur.dropWhile isIfSpace } := by
      have := next_token_snd st "<"
      rw [heq] at this
      exact this
    split
    next st2 heq2 =>
      have h2 : st2 = { st1 with cur := st1.cur.dropWhile isIfSpace } := by
        have := next_token_snd st1 "["
        rw [heq2] at this
        exact this
      split
      next etag st3 heq3 =>
        have h3 := accept_etag_state st2
        rw [heq3] at h3
        simp only [] at h3
        constructor
        · simp [h3.1, h2, h1]
        · exact locksExtend_of_eq (by simp [h3.2, h2, h1])
    next st2 heq2 =>
      have h2 : st2 = { st1 with cur := st1.cur.dropWhile isIfSpace } := by
        have := next_token_snd st1 "["
        rw [heq2] at this
        exact this
      constructor
      · simp [h2, h1]
      · exact locksExtend_of_eq (by simp [h2, h1])

theorem eval_if_not_condition_state (reg : Registry) (etags : EtagOracle) (st : IfState) :
    ((eval_if_not_condition reg etags st).2).path = st.path
    ∧ locksExtend st (eval_if_not_condition reg etags st).2 := by
  unfold eval_if_not_condition
  split
  next b st1 heq =>
    have h1 := accept_token_state st "Not"
    rw [heq] at h1
    simp only [] at h1
    split
    next r st2 heq2 =>
      have h2 := eval_if_condition_state reg etags st1
      rw [heq2] at h2
      simp only [] at h2
      constructor
      · exact h2.1.trans h1.1
      · refine locksExtend_trans (locksExtend_of_eq h1.2) ?_
        exact h2.2

theorem evalIfListGo_extends (reg : Registry) (etags : EtagOracle) :
    ∀ (fuel : Nat) (success : Bool) (st : IfState) (r : Bool) (st' : IfState),
    evalIfListGo reg etags fuel success st = Option.some (r, st') → locksExtend st st' := by
  intro fuel
  induction fuel with
  | zero => intro _ _ _ _ h; cases h
  | succ fuel ih =>
    intro success st r st' h
    unfold evalIfListGo at h
    split at h
    next st1 heq =>
      injection h with h'
      injection h' with _ hst
      subst hst
      have h1 := accept_token_state st ")"
      rw [heq] at h1
      exact locksExtend_of_eq h1.2
    next st1 heq =>
      have h1 := accept_token_state st ")"
      rw [heq] at h1
      split at h
      next r2 st2 heq2 =>
        have h2 := eval_if_not_condition_state reg etags st1
        rw [heq2] at h2
        simp only [] at h2
        exact locksExtend_trans (locksExtend_trans (locksExtend_of_eq h1.2) h2.2)
          (ih _ _ _ _ h)

theorem eval_if_list_extends (reg : Registry) (etags : EtagOracle) (fuel : Nat)
    (st : IfState) (r : Bool) (st' : IfState)
    (h : eval_if_list reg etags fuel st = Option.some (r, st')) : locksExtend st st' := by
  unfold eval_if_list at h
  split at h
  next st1 heq =>
    injection h with h'
    injection h' with _ hst
    subst hst
    have h1 := accept_token_state st "("
    rw [heq] at h1
    exact locksExtend_of_eq h1.2
  next st1 heq =>
    have h1 := accept_token_state st "("
    rw [heq] at h1
    split at h
    next r2 st2 heq2 =>
      have h2 := eval_if_not_condition_state reg etags st1
      rw [heq2] at h2
      simp only [] at h2
      exact locksExtend_trans (locksExtend_trans (locksExtend_of_eq h1.2) h2.2)
        (evalIfListGo_extends reg etags fuel r2 st2 r st' h)

theorem evalIfListsGo_extends (reg : Registry) (etags : EtagOracle) :
    ∀ (fuel : Nat) (success : Bool) (st : IfState) (r : Bool) (st' : IfState),
    evalIfListsGo reg etags fuel success st = Option.some (r, st') → locksExtend st st' := by
  intro fuel
  induction fuel with
  | zero => intro _ _ _ _ h; cases h
  | succ fuel ih =>
    intro success st r st' h
    unfold evalIfListsGo at h
    split at h
    next st1 heq =>
      injection h with h'
      injection h' with _ hst
      subst hst
      have h1 : st1 = { st with cur := st.cur.dropWhile isIfSpace } := by
        have := next_token_snd st "("
        rw [heq] at this
        exact this
      exact locksExtend_of_eq (by simp [h1])
    next st1 heq =>
      have h1 : st1 = { st with cur := st.cur.dropWhile isIfSpace } := by
        have := next_token_snd st "("
        rw [heq] at this
        exact this
      split at h
      next heq2 => cases h
      next rs heq2 =>
        exact locksExtend_trans
          (locksExtend_trans (locksExtend_of_eq (by simp [h1]))
            (eval_if_list_extends reg etags fuel st1 rs.1 rs.2 heq2))
          (ih _ _ _ _ h)

theorem eval_if_lists_extends (reg : Registry) (etags : EtagOracle) (fuel : Nat)
    (st : IfState) (r : Bool) (st' : IfState)
    (h : eval_if_lists reg etags fuel st = Option.some (r, st')) : locksExtend st st' := by
  unfold eval_if_lists at h
  split at h
  next st1 heq =>
    injection h with h'
    injection h' with _ hst
    subst hst
    have h1 : st1 = { st with cur := st.cur.dropWhile isIfSpace } := by
      have := next_token_snd st "("
      rw [heq] at this
      exact this
    exact locksExtend_of_eq (by simp [h1])
  next st1 heq =>
    have h1 : st1 = { st with cur := st.cur.dropWhile isIfSpace } := by
      have := next_token_snd st "("
      rw [heq] at this
      exact this
    exact locksExtend_trans (locksExtend_of_eq (by simp [h1]))
      (evalIfListsGo_extends reg etags fuel false st1 r st' h)

theorem eval_if_tag_extends (reg : Registry) (etags : EtagOracle) (fuel : Nat)
    (st : IfState) (r : Bool) (st' : IfState)
    (h : eval_if_tag reg etags fuel st = Option.some (r, st')) : locksExtend st st' := by
  unfold eval_if_tag at h
  split at h
  next st1 heq =>
    injection h with h'
    injection h' with _ hst
    subst hst
    have h1 := accept_ref_state st
    rw [heq] at h1
    exact locksExtend_of_eq h1.2
  next rf st1 heq =>
    have h1 := accept_ref_state st
    rw [heq] at h1
    simp only [] at h1
    split at h
    next heq2 =>
      injection h with h'
      injection h' with _ hst
      subst hst
      exact locksExtend_of_eq h1.2
    next p heq2 =>
      have h2 := eval_if_lists_extends reg etags fuel { st1 with path := p } r st' h
      obtain ⟨L, hL⟩ := h2
      exact ⟨L, by simpa [h1.2] using hL⟩

theorem evalIfTagsLoop_extends (reg : Registry) (etags : EtagOracle) :
    ∀ (fuel : Nat) (success : Bool) (st : IfState) (r : Bool) (st' : IfState),
    evalIfTagsLoop reg etags fuel success st = Option.some (r, st') → locksExtend st st' := by
  intro fuel
  induction fuel with
  | zero =>
    intro success st r st' h
    unfold evalIfTagsLoop at h
    split at h
    next st1 heq =>
      injection h with h'
      injection h' with _ hst
      subst hst
      have h1 : st1 = { st with cur := st.cur.dropWhile isIfSpace } := by
        have := eat_whitespaces_snd st
        rw [heq] at this
        exact this
      exact locksExtend_of_eq (by simp [h1])
    next st1 heq => cases h
  | succ fuel ih =>
    intro success st r st' h
    unfold evalIfTagsLoop at h
    split at h
    next st1 heq =>
      injection h with h'
      injection h' with _ hst
      subst hst
      have h1 : st1 = { st with cur := st.cur.dropWhile isIfSpace } := by
        have := eat_whitespaces_snd st
        rw [heq] at this
        exact this
      exact locksExtend_of_eq (by simp [h1])
    next st1 heq =>
      have h1 : st1 = { st with cur := st.cur.dropWhile isIfSpace } := by
        have := eat_whitespaces_snd st
        rw [heq] at this
        exact this
      split at h
      next heq2 => cases h
      next rs heq2 =>
        exact locksExtend_trans
          (locksExtend_trans (locksExtend_of_eq (by simp [h1]))
            (eval_if_tag_extends reg etags fuel st1 rs.1 rs.2 heq2))
          (ih _ _ _ _ h)

theorem evalIfUntaggedLoop_extends (reg : Registry) (etags : EtagOracle) :
    ∀ (fuel : Nat) (success : Bool) (st : IfState) (r : Bool) (st' : IfState),
    evalIfUntaggedLoop reg etags fuel success st = Option.some (r, st') →
    locksExtend st st' := by
  intro fuel
  induction fuel with
  | zero =>
    intro success st r st' h
    unfold evalIfUntaggedLoop at h
    split at h
    next st1 heq =>
      injection h with h'
      injection h' with _ hst
      subst hst
      have h1 : st1 = { st with cur := st.cur.dropWhile isIfSpace } := by
        have := eat_whitespaces_snd st
        rw [heq] at this
        exact this
      exact locksExtend_of_eq (by simp [h1])
    next st1 heq => cases h
  | succ fuel ih =>
    intro success st r st' h
    unfold evalIfUntaggedLoop at h
    split at h
    next st1 heq =>
      injection h with h'
      injection h' with _ hst
      subst hst
      have h1 : st1 = { st with cur := st.cur.dropWhile isIfSpace } := by
        have := eat_whitespaces_snd st
        rw [heq] at this
        exact this
      exact locksExtend_of_eq (by simp [h1])
    next st1 heq =>
      have h1 : st1 = { st with cur := st.cur.dropWhile isIfSpace } := by
        have := eat_whitespaces_snd st
        rw [heq] at this
        exact this
      split at h
      next heq2 => cases h
      next rs heq2 =>
        exact locksExtend_trans
          (locksExtend_trans (locksExtend_of_eq (by simp [h1]))
            (eval_if_lists_extends reg etags fuel st1 rs.1 rs.2 heq2))
          (ih _ _ _ _ h)

theorem eval_if_extends (reg : Registry) (etags : EtagOracle) (fuel : Nat)
    (st : IfState) (r : Bool) (st' : IfState)
    (h : eval_if reg etags fuel st = Option.some (r, st')) : locksExtend st st' := by
  unfold eval_if at h
  split at h
  next st1 heq =>
    have h1 : st1 = { st with cur := st.cur.dropWhile isIfSpace } := by
      have := next_token_snd st "<"
      rw [heq] at this
      exact this
    exact locksExtend_trans (locksExtend_of_eq (by simp [h1]))
      (evalIfTagsLoop_extends reg etags fuel false st1 r st' h)
  next st1 heq =>
    have h1 : st1 = { st with cur := st.cur.dropWhile isIfSpace } := by
      have := next_token_snd st "<"
      rw [heq] at this
      exact this
    exact locksExtend_trans (locksExtend_of_eq (by simp [h1]))
      (evalIfUntaggedLoop_extends reg etags fuel false st1 r st' h)

theorem dropWhile_cons_not_space (c : Char) (l : List Char) (h : isIfSpace c = false) :
    (c :: l).dropWhile isIfSpace = c :: l := by
  simp [List.dropWhile_cons, h]

theorem splitAtChar_append (c : Char) (a b : List Char) (ha : c ∉ a) :
    splitAtChar c (a ++ c :: b) = Option.some (a, b) := by
  induction a with
  | nil => simp [splitAtChar]
  | cons x xs ih =>
    have hx : ¬ (x = c) := fun h => ha (by simp [h])
    have ha' : c ∉ xs := fun h => ha (by simp [h])
    simp only [List.cons_append, splitAtChar, if_neg hx, List.append_eq, ih ha']

theorem eval_if_condition_token (reg : Registry) (etags : EtagOracle) (st : IfState)
    (url : String) (rest : List Char)
    (h : st.cur.dropWhile isIfSpace = '<' :: (url.data ++ '>' :: rest))
    (hno : '>' ∉ url.data) :
    eval_if_condition reg etags st
      = (check_token reg st.path url,
         { cur := rest, path := st.path,
           locks := st.locks ++ [(remove_trailing st.path '/', url)] }) := by
  have hnt : next_token st "<"
      = (true, { st with cur := '<' :: (url.data ++ '>' :: rest) }) := by
    show ("<".data.isPrefixOf (st.cur.dropWhile isIfSpace),
          ({ st with cur := st.cur.dropWhile isIfSpace } : IfState)) = _
    rw [h]
    simp [List.isPrefixOf]
  have hat : accept_token { st with cur := '<' :: (url.data ++ '>' :: rest) } "<"
      = (true, { st with cur := url.data ++ '>' :: rest }) := by
    unfold accept_token next_token eat_whitespaces
    rw [show ('<' :: (url.data ++ '>' :: rest)).dropWhile isIfSpace
        = '<' :: (url.data ++ '>' :: rest) from dropWhile_cons_not_space _ _ (by decide)]
    simp [List.isPrefixOf]
  have har : accept_ref { st with cur := '<' :: (url.data ++ '>' :: rest) }
      = (Option.some url, { st with cur := rest }) := by
    unfold accept_ref
    rw [hat]
    dsimp only
    rw [splitAtChar_append '>' url.data rest hno]
  unfold eval_if_condition
  rw [hnt]
  dsimp only
  rw [har]
  rfl

/-- C10: when the overall `If:` expression evaluates true, the
submitted-token list returned by the evaluator contains a
`(path, token)` pair for every `<token>` condition visited — a token
condition appends its pair whether or not its check succeeds (and `Not`
only negates the verdict), the pair's path being the currently bound
path with trailing slashes removed; every evaluator stage only appends
to the list; on overall success `phodav_check_if` returns the
accumulated list, and on overall failure it discards it and returns
nothing. -/
theorem c10_submitted_tokens :
    (∀ (reg : Registry) (etags : EtagOracle) (st : IfState) (url : String)
       (rest : List Char),
       st.cur.dropWhile isIfSpace = '<' :: (url.data ++ '>' :: rest) →
       '>' ∉ url.data →
       eval_if_condition reg etags st
         = (check_token reg st.path url,
            { cur := rest, path := st.path,
              locks := st.locks ++ [(remove_trailing st.path '/', url)] }))
    ∧ (∀ (reg : Registry) (etags : EtagOracle) (st : IfState),
       (eval_if_not_condition reg etags st).2
         = (eval_if_condition reg etags ((accept_token st "Not").2)).2)
    ∧ (∀ (reg : Registry) (etags : EtagOracle) (fuel : Nat) (st : IfState)
         (b : Bool) (st' : IfState),
       eval_if reg etags fuel st = Option.some (b, st') →
       ∃ L, st'.locks = st.locks ++ L)
    ∧ (∀ (reg : Registry) (etags : EtagOracle) (isCopy : Bool) (path s : String)
         (fuel : Nat) (st' : IfState),
       eval_if reg etags fuel { cur := s.data, path := path, locks := [] }
           = Option.some (true, st') →
       (phodav_check_if reg etags isCopy path (Option.some s) fuel).map Prod.snd
         = Option.some st'.locks)
    ∧ (∀ (reg : Registry) (etags : EtagOracle) (isCopy : Bool) (path s : String)
         (fuel : Nat) (st' : IfState),
       eval_if reg etags fuel { cur := s.data, path := path, locks := [] }
           = Option.some (false, st') →
       phodav_check_if reg etags isCopy path (Option.some s) fuel
         = Option.some (412, [])) := by
  refine ⟨eval_if_condition_token, ?_, ?_, ?_, ?_⟩
  · intro reg etags st
    rfl
  · intro reg etags fuel st b st' h
    exact eval_if_extends reg etags fuel st b st' h
  · intro reg etags isCopy path s fuel st' h
    have hred : phodav_check_if reg etags isCopy path (Option.some s) fuel
        = match eval_if reg etags fuel { cur := s.data, path := path, locks := [] } with
          | Option.none => Option.none
          | Option.some (true, st) =>
            Option.some
              (if !isCopy && path_has_other_locks reg path st.locks then 423 else 200,
               st.locks)
          | Option.some (false, _) => Option.some (412, []) := by
      unfold phodav_check_if
      rfl
    rw [hred, h]
    cases hst : (!isCopy && path_has_other_locks reg path st'.locks) <;> simp [hst]
  · intro reg etags isCopy path s fuel st' h
    have hred : phodav_check_if reg etags isCopy path (Option.some s) fuel
        = match eval_if reg etags fuel { cur := s.data, path := path, locks := [] } with
          | Option.none => Option.none
          | Option.some (true, st) =>
            Option.some
              (if !isCopy && path_has_other_locks reg path st.locks then 423 else 200,
               st.locks)
          | Option.some (false, _) => Option.some (412, []) := by
      unfold phodav_check_if
      rfl
    rw [hred, h]

/-- C10, witness: at concrete inputs — a failing token condition on a
trailing-slash path still appends its stripped pair; a negated failing
condition leaves the overall expression true and the pair is returned by
`phodav_check_if`; a failing header discards the list. -/
theorem c10_submitted_tokens_witness :
    eval_if_condition [] (fun _ => Option.none)
        { cur := "<abc>)".data, path := "/p/", locks := [] }
      = (false, { cur := ")".data, path := "/p/", locks := [("/p", "abc")] })
    ∧ (∃ L, ([("/a", "DAV:no-lock")] : List (String × String)) = [] ++ L)
    ∧ (phodav_check_if [] (fun _ => Option.none) false "/a"
        (Option.some "(Not <abc>)") 10).map Prod.snd
      = Option.some [("/a", "abc")]
    ∧ phodav_check_if [] (fun _ => Option.none) false "/a"
        (Option.some "(<abc>)") 10 = Option.some (412, []) := by
  refine ⟨?_, ?_, ?_, ?_⟩
  · have h := c10_submitted_tokens.1 [] (fun _ => Option.none)
      { cur := "<abc>)".data, path := "/p/", locks := [] } "abc" ")".data
      (by decide) (by decide)
    rw [h]
    decide
  · exact c10_submitted_tokens.2.2.1 [("/a", [exclLockA])] (fun _ => Option.none) 10
      { cur := "(Not <DAV:no-lock>)".data, path := "/a", locks := [] } true
      { cur := [], path := "/a", locks := [("/a", "DAV:no-lock")] } (by decide)
  · exact c10_submitted_tokens.2.2.2.1 [] (fun _ => Option.none) false "/a"
      "(Not <abc>)" 10 { cur := [], path := "/a", locks := [("/a", "abc")] } (by decide)
  · exact c10_submitted_tokens.2.2.2.2 [] (fun _ => Option.none) false "/a"
      "(<abc>)" 10 { cur := [], path := "/a", locks := [("/a", "abc")] } (by decide)

/-! ## Claim C5 — MOVE/COPY overwrite semantics -/

theorem movecopyOp_dest_blocks (fs : FS) (copy : Bool) (src dst : String)
    (hex : fsExists fs dst = true) :
    movecopyOp fs copy src dst false = Except.error GErr.alreadyExists := by
  obtain ⟨e, he⟩ : ∃ e, fsLookup fs dst = Option.some e := by
    cases h : fsLookup fs dst with
    | none => rw [fsExists, h] at hex; cases hex
    | some e => exact ⟨e, rfl⟩
  unfold movecopyOp g_file_copy g_file_move
  cases copy <;> simp [he]

theorem do_movecopy_overwrite_f (fs : FS) (copy : Bool) (src dst : String)
    (depthHdr : Option String) (hd : depth_from_string depthHdr ≠ DepthType.one)
    (hex : fsExists fs dst = true) :
    do_movecopy_file fs copy src dst depthHdr (Option.some "F") = (412, fs) := by
  have hov : overwrite_from_string (Option.some "F") = false := by decide
  unfold do_movecopy_file
  rw [hov]
  dsimp only
  cases hdep : depth_from_string depthHdr with
  | one => exact absurd hdep hd
  | zero =>
    dsimp only
    rw [movecopyOp_dest_blocks fs copy src dst hex]
    dsimp only
    rw [if_neg (by simp)]
    unfold movecopyHandleErr
    rw [if_pos (by simp)]
  | infinity =>
    dsimp only
    rw [movecopyOp_dest_blocks fs copy src dst hex]
    dsimp only
    rw [if_neg (by simp)]
    unfold movecopyHandleErr
    rw [if_pos (by simp)]

theorem do_movecopy_status_cases (fs : FS) (copy : Bool) (src dst : String)
    (depthHdr overwriteHdr : Option String) :
    (do_movecopy_file fs copy src dst depthHdr overwriteHdr).1
        = (if fsExists fs dst then 204 else 201)
    ∨ (do_movecopy_file fs copy src dst depthHdr overwriteHdr).1 = 409
    ∨ (do_movecopy_file fs copy src dst depthHdr overwriteHdr).1 = 412 := by
  unfold do_movecopy_file movecopyHandleErr
  dsimp only
  repeat' split
  all_goals simp

theorem do_movecopy_success_status (fs : FS) (copy : Bool) (src dst : String)
    (depthHdr overwriteHdr : Option String) :
    ((do_movecopy_file fs copy src dst depthHdr overwriteHdr).1 = 201 →
      fsExists fs dst = false)
    ∧ ((do_movecopy_file fs copy src dst depthHdr overwriteHdr).1 = 204 →
      fsExists fs dst = true) := by
  have hc := do_movecopy_status_cases fs copy src dst depthHdr overwriteHdr
  constructor
  · intro h
    rw [h] at hc
    cases hex : fsExists fs dst
    · rfl
    · rw [hex] at hc
      simp at hc
  · intro h
    rw [h] at hc
    cases hex : fsExists fs dst
    · rw [hex] at hc
      simp at hc
    · rfl

/-- C5, counterexample: a `Depth: 1` request falls through the
`default:` branch of the `switch (depth)` — no copy or move is attempted
and `error` stays unset — so even with `Overwrite: F` and the
destination already present the handler returns `204 No Content` (not
`412 Precondition Failed`), and a `Depth: 1` copy to a fresh destination
reports `201 Created` while creating nothing. -/
theorem c5_depth_one_no_copy :
    do_movecopy_file [("/a.txt", ⟨false, []⟩), ("/b.txt", ⟨false, []⟩)] true
        "/a.txt" "/b.txt" (Option.some "1") (Option.some "F")
      = (204, [("/a.txt", ⟨false, []⟩), ("/b.txt", ⟨false, []⟩)])
    ∧ do_movecopy_file [("/a.txt", ⟨false, []⟩)] true "/a.txt" "/b.txt"
        (Option.some "1") Option.none
      = (201, [("/a.txt", ⟨false, []⟩)])
    ∧ fsExists [("/a.txt", ⟨false, []⟩)] "/b.txt" = false := by
  refine ⟨by decide, by decide, by decide⟩

/-- C5 (amended): the `Overwrite` header defaults to `T` and only the
value `F` disables overwrite.  For a request whose `Depth` header is not
exactly `"1"` (the `switch (depth)` covers `DEPTH_ZERO` and
`DEPTH_INFINITY` only): with overwrite disabled and the destination
already existing the handler returns `412 Precondition Failed` and does
not mutate the filesystem (so repeated `COPY src dst` with
`Overwrite: F` keeps returning `412`).  On any request the status
`201 Created` implies the destination did not previously exist and
`204 No Content` implies it did.  A `Depth: 1` request attempts no copy
or move at all: the filesystem is returned unchanged with the success
status of the pre-recorded destination existence. -/
theorem c5_overwrite_semantics :
    overwrite_from_string Option.none = true
    ∧ (∀ s : String, s ≠ "F" → overwrite_from_string (Option.some s) = true)
    ∧ overwrite_from_string (Option.some "F") = false
    ∧ (∀ (fs : FS) (copy : Bool) (src dst : String) (depthHdr : Option String),
       depth_from_string depthHdr ≠ DepthType.one →
       fsExists fs dst = true →
       do_movecopy_file fs copy src dst depthHdr (Option.some "F") = (412, fs))
    ∧ (∀ (fs : FS) (copy : Bool) (src dst : String) (depthHdr : Option String),
       depth_from_string depthHdr ≠ DepthType.one →
       fsExists fs dst = true →
       do_movecopy_file (do_movecopy_file fs copy src dst depthHdr (Option.some "F")).2
           copy src dst depthHdr (Option.some "F") = (412, fs))
    ∧ (∀ (fs : FS) (copy : Bool) (src dst : String) (depthHdr overwriteHdr : Option String),
       ((do_movecopy_file fs copy src dst depthHdr overwriteHdr).1 = 201 →
         fsExists fs dst = false)
       ∧ ((do_movecopy_file fs copy src dst depthHdr overwriteHdr).1 = 204 →
         fsExists fs dst = true))
    ∧ (∀ (fs : FS) (copy : Bool) (src dst : String) (overwriteHdr : Option String),
       do_movecopy_file fs copy src dst (Option.some "1") overwriteHdr
         = (if fsExists fs dst then 204 else 201, fs)) := by
  refine ⟨rfl, ?_, rfl, do_movecopy_overwrite_f, ?_, do_movecopy_success_status, ?_⟩
  · intro s hs
    simp [overwrite_from_string, hs]
  · intro fs copy src dst depthHdr hd hex
    rw [do_movecopy_overwrite_f fs copy src dst depthHdr hd hex]
    exact do_movecopy_overwrite_f fs copy src dst depthHdr hd hex
  · intro fs copy src dst overwriteHdr
    have h1 : depth_from_string (Option.some "1") = DepthType.one := by decide
    unfold do_movecopy_file
    dsimp only
    rw [h1]

/-- C5, witness: on a filesystem holding `/a.txt` and `/b.txt`, `COPY`
with `Overwrite: F` and no `Depth` header answers `412` twice without
mutation, a `201` certifies the destination was fresh, and a `Depth: 1`
copy over the existing `/b.txt` returns `204` with the filesystem
unchanged. -/
theorem c5_overwrite_semantics_witness :
    overwrite_from_string (Option.some "T") = true
    ∧ do_movecopy_file [("/a.txt", ⟨false, []⟩), ("/b.txt", ⟨false, []⟩)] true
        "/a.txt" "/b.txt" Option.none (Option.some "F")
      = (412, [("/a.txt", ⟨false, []⟩), ("/b.txt", ⟨false, []⟩)])
    ∧ do_movecopy_file
        (do_movecopy_file [("/a.txt", ⟨false, []⟩), ("/b.txt", ⟨false, []⟩)] true
          "/a.txt" "/b.txt" Option.none (Option.some "F")).2 true
        "/a.txt" "/b.txt" Option.none (Option.some "F")
      = (412, [("/a.txt", ⟨false, []⟩), ("/b.txt", ⟨false, []⟩)])
    ∧ ((do_movecopy_file [("/a.txt", ⟨false, []⟩)] true "/a.txt" "/b.txt"
          Option.none Option.none).1 = 201 →
        fsExists [("/a.txt", ⟨false, []⟩)] "/b.txt" = false)
    ∧ do_movecopy_file [("/a.txt", ⟨false, []⟩), ("/b.txt", ⟨false, []⟩)] true
        "/a.txt" "/b.txt" (Option.some "1") Option.none
      = (204, [("/a.txt", ⟨false, []⟩), ("/b.txt", ⟨false, []⟩)]) := by
  refine ⟨c5_overwrite_semantics.2.1 "T" (by decide), ?_, ?_, ?_, ?_⟩
  · exact c5_overwrite_semantics.2.2.2.1 _ true "/a.txt" "/b.txt" Option.none
      (by decide) (by decide)
  · exact c5_overwrite_semantics.2.2.2.2.1 _ true "/a.txt" "/b.txt" Option.none
      (by decide) (by decide)
  · exact (c5_overwrite_semantics.2.2.2.2.2.1 _ true "/a.txt" "/b.txt"
      Option.none Option.none).1
  · rw [c5_overwrite_semantics.2.2.2.2.2.2 [("/a.txt", ⟨false, []⟩), ("/b.txt", ⟨false, []⟩)]
      true "/a.txt" "/b.txt" Option.none]
    decide

/-! ## Claim C6 — PROPFIND depth and body handling -/

/-- C6: a PROPFIND request with an empty (or absent) body is treated as
`allprop` (it produces the same multistatus as an explicit `allprop`
request); `Depth: 0` produces a response for the target only, `Depth: 1`
for the target plus its immediate children, and `Depth: infinity` is
rejected with `403 Forbidden`. -/
theorem c6_propfind_depth :
    (∀ (fs : FS) (path : String) (depthHdr : Option String),
       method_propfind fs path depthHdr PropfindBody.empty
         = method_propfind fs path depthHdr (PropfindBody.parsed PropfindType.allprop))
    ∧ (∀ (fs : FS) (path : String),
       fsExists fs path = true →
       method_propfind fs path (Option.some "0") PropfindBody.empty = (207, [path]))
    ∧ (∀ (fs : FS) (path : String),
       fsExists fs path = true →
       method_propfind fs path (Option.some "1") PropfindBody.empty
         = (207, path :: (childrenNames fs path).map
             (fun n => buildPath path (markupEscape n))))
    ∧ (∀ (fs : FS) (path : String) (body : PropfindBody),
       body ≠ PropfindBody.malformed →
       method_propfind fs path (Option.some "infinity") body = (403, [])) := by
  refine ⟨?_, ?_, ?_, ?_⟩
  · intro fs path depthHdr
    rfl
  · intro fs path hex
    unfold method_propfind propfind_query_zero
    simp [depth_from_string, hex]
  · intro fs path hex
    unfold method_propfind propfind_query_one propfind_query_zero
    simp [depth_from_string, hex]
  · intro fs path body hbody
    unfold method_propfind
    cases body with
    | malformed => exact absurd rfl hbody
    | empty => rfl
    | parsed t => rfl

/-- C6, witness: on a filesystem with directory `/d` holding `/d/x` and
`/d/y`, `Depth: 0` lists only `/d`, `Depth: 1` lists `/d`, `/d/x`,
`/d/y`, and `Depth: infinity` is refused with `403`. -/
theorem c6_propfind_depth_witness :
    method_propfind
        [("/d", ⟨true, []⟩), ("/d/x", ⟨false, []⟩), ("/d/y", ⟨false, []⟩)] "/d"
        (Option.some "0") PropfindBody.empty = (207, ["/d"])
    ∧ method_propfind
        [("/d", ⟨true, []⟩), ("/d/x", ⟨false, []⟩), ("/d/y", ⟨false, []⟩)] "/d"
        (Option.some "1") PropfindBody.empty = (207, ["/d", "/d/x", "/d/y"])
    ∧ method_propfind
        [("/d", ⟨true, []⟩), ("/d/x", ⟨false, []⟩), ("/d/y", ⟨false, []⟩)] "/d"
        (Option.some "infinity") PropfindBody.empty = (403, []) := by
  refine ⟨?_, ?_, ?_⟩
  · rw [c6_propfind_depth.2.1 _ "/d" (by decide)]
  · rw [c6_propfind_depth.2.2.1 _ "/d" (by decide)]
    decide
  · exact c6_propfind_depth.2.2.2 _ "/d" PropfindBody.empty (by decide)

/-! ## Claim C7 — MKCOL status mapping -/

/-- C7: for every target path, MKCOL returns `415 Unsupported Media
Type` when the request carried a body — before evaluating `If:` (the
outcome of the evaluator is irrelevant); otherwise it evaluates `If:`
first and returns any non-`200` verdict unchanged; and then returns `201
Created` on success, `409 Conflict` when the parent directory is
missing, `405 Method Not Allowed` when the target already exists, and
`403` for any other filesystem error. -/
theorem c7_mkcol_statuses :
    (∀ (reg : Registry) (etags : EtagOracle) (fs : FS) (path : String)
       (bodyLen : Nat) (ifHdr : Option String) (fuel : Nat),
       bodyLen ≠ 0 →
       phodav_method_mkcol reg etags fs path bodyLen ifHdr fuel = Option.some (415, fs))
    ∧ (∀ (reg : Registry) (etags : EtagOracle) (fs : FS) (path : String)
         (ifHdr : Option String) (fuel : Nat) (status : Nat)
         (submitted : List (String × String)),
       phodav_check_if reg etags false path ifHdr fuel = Option.some (status, submitted) →
       status ≠ 200 →
       phodav_method_mkcol reg etags fs path 0 ifHdr fuel = Option.some (status, fs))
    ∧ (∀ (reg : Registry) (etags : EtagOracle) (fs : FS) (path : String)
         (ifHdr : Option String) (fuel : Nat)
         (submitted : List (String × String)),
       phodav_check_if reg etags false path ifHdr fuel = Option.some (200, submitted) →
       phodav_method_mkcol reg etags fs path 0 ifHdr fuel
         = Option.some (do_mkcol_file fs path))
    ∧ (∀ (fs : FS) (p : String), fsExists fs p = true → do_mkcol_file fs p = (405, fs))
    ∧ (∀ (fs : FS) (p : String),
       fsExists fs p = false → parentPath p ≠ "/" →
       fsLookup fs (parentPath p) = Option.none → do_mkcol_file fs p = (409, fs))
    ∧ (∀ (fs : FS) (p : String) (ent : Ent),
       fsExists fs p = false → parentPath p ≠ "/" →
       fsLookup fs (parentPath p) = Option.some ent → ent.isDir = false →
       do_mkcol_file fs p = (403, fs))
    ∧ (∀ (fs : FS) (p : String),
       fsExists fs p = false →
       (parentPath p = "/"
         ∨ ∃ ent, fsLookup fs (parentPath p) = Option.some ent ∧ ent.isDir = true) →
       do_mkcol_file fs p = (201, fsSet fs p ⟨true, []⟩)) := by
  refine ⟨?_, ?_, ?_, ?_, ?_, ?_, ?_⟩
  · intro reg etags fs path bodyLen ifHdr fuel hlen
    unfold phodav_method_mkcol
    rw [if_pos hlen]
  · intro reg etags fs path ifHdr fuel status submitted hchk hne
    unfold phodav_method_mkcol
    rw [if_neg (by simp), hchk]
    dsimp only
    rw [if_pos hne]
  · intro reg etags fs path ifHdr fuel submitted hchk
    unfold phodav_method_mkcol
    rw [if_neg (by simp), hchk]
    dsimp only
    rw [if_neg (by simp)]
  · intro fs p hex
    unfold do_mkcol_file g_file_make_directory
    rw [if_pos hex]
  · intro fs p hex hpar hlook
    unfold do_mkcol_file g_file_make_directory
    rw [if_neg (by simp [hex])]
    dsimp only
    rw [if_neg hpar, hlook]
  · intro fs p ent hex hpar hlook hdir
    unfold do_mkcol_file g_file_make_directory
    rw [if_neg (by simp [hex])]
    dsimp only
    rw [if_neg hpar, hlook]
    dsimp only
    rw [if_neg (by simp [hdir])]
  · intro fs p hex hpar
    unfold do_mkcol_file g_file_make_directory
    rw [if_neg (by simp [hex])]
    dsimp only
    rcases hpar with hroot | ⟨ent, hlook, hdir⟩
    · rw [if_pos hroot]
    · by_cases hroot : parentPath p = "/"
      · rw [if_pos hroot]
      · rw [if_neg hroot, hlook]
        dsimp only
        rw [if_pos hdir]

/-- C7, witness: the status mapping at concrete inputs — a body gives
`415`; an unsatisfied `If:` gives `412` before touching the filesystem;
`MKCOL /d` creates (`201`), repeated `MKCOL /d` is `405`, `MKCOL /d/e/f`
with `/d/e` missing is `409`, and `MKCOL /f/x` under the plain file `/f`
is `403`. -/
theorem c7_mkcol_statuses_witness :
    phodav_method_mkcol [] (fun _ => Option.none) [] "/d" 3 Option.none 10
      = Option.some (415, [])
    ∧ phodav_method_mkcol [] (fun _ => Option.none) [] "/d" 0
        (Option.some "(<DAV:no-lock>)") 10 = Option.some (412, [])
    ∧ do_mkcol_file [] "/d" = (201, [("/d", ⟨true, []⟩)])
    ∧ do_mkcol_file [("/d", ⟨true, []⟩)] "/d" = (405, [("/d", ⟨true, []⟩)])
    ∧ do_mkcol_file [] "/d/e/f" = (409, [])
    ∧ do_mkcol_file [("/f", ⟨false, []⟩)] "/f/x" = (403, [("/f", ⟨false, []⟩)]) := by
  refine ⟨?_, ?_, ?_, ?_, ?_, ?_⟩
  · exact c7_mkcol_statuses.1 [] (fun _ => Option.none) [] "/d" 3 Option.none 10
      (by decide)
  · exact c7_mkcol_statuses.2.1 [] (fun _ => Option.none) [] "/d"
      (Option.some "(<DAV:no-lock>)") 10 412 [] (by decide) (by decide)
  · exact c7_mkcol_statuses.2.2.2.2.2.2 [] "/d" (by decide) (Or.inl (by decide))
  · exact c7_mkcol_statuses.2.2.2.1 [("/d", ⟨true, []⟩)] "/d" (by decide)
  · exact c7_mkcol_statuses.2.2.2.2.1 [] "/d/e/f" (by decide) (by decide) (by decide)
  · exact c7_mkcol_statuses.2.2.2.2.2.1 [("/f", ⟨false, []⟩)] "/f/x" ⟨false, []⟩
      (by decide) (by decide) (by decide) (by decide)

/-! ## Claim C8 — dead-property xattr round trip -/

theorem splitAtChar_none (c : Char) (l : List Char) (h : c ∉ l) :
    splitAtChar c l = Option.none := by
  induction l with
  | nil => rfl
  | cons x xs ih =>
    have hx : ¬ (x = c) := fun he => h (by simp [he])
    have h' : c ∉ xs := fun hm => h (by simp [hm])
    simp only [splitAtChar, if_neg hx, ih h']

theorem mapReplace_find? {α : Type} (k : String) (v : α) (xs : List (String × α)) :
    (xs.map (fun e => if e.1 = k then (k, v) else e)).find? (fun e => e.1 = k)
      = if xs.any (fun e => e.1 = k) then Option.some (k, v) else Option.none := by
  induction xs with
  | nil => rfl
  | cons x xs ih =>
    by_cases h : x.1 = k
    · simp [h, ih]
    · have hd : (decide (x.1 = k)) = false := by simp [h]
      rw [List.map_cons, if_neg h, List.find?_cons_of_neg _ (by simp [h]), ih,
        List.any_cons, hd, Bool.false_or]

theorem find?_append_none {α : Type} (p : α → Bool) (l₁ l₂ : List α)
    (h : l₁.find? p = Option.none) : (l₁ ++ l₂).find? p = l₂.find? p := by
  induction l₁ with
  | nil => rfl
  | cons x xs ih =>
    cases hx : p x with
    | true =>
      rw [List.find?_cons_of_pos _ hx] at h
      exact absurd h (by simp)
    | false =>
      rw [List.find?_cons_of_neg _ (by simp [hx])] at h
      rw [List.cons_append, List.find?_cons_of_neg _ (by simp [hx])]
      exact ih h

theorem fsLookup_fsSet_self (fs : FS) (p : String) (e : Ent) :
    fsLookup (fsSet fs p e) p = Option.some e := by
  by_cases h : fsExists fs p
  · have hany : fs.any (fun x => x.1 = p) = true := by
      unfold fsExists fsLookup at h
      cases hf : fs.find? (fun x => x.1 = p) with
      | none => rw [hf] at h; simp at h
      | some q =>
        have hq := List.find?_some hf
        have hm := List.mem_of_find?_eq_some hf
        exact List.any_eq_true.mpr ⟨q, hm, hq⟩
    unfold fsSet
    rw [if_pos h]
    unfold fsLookup
    rw [mapReplace_find?, if_pos hany]
  · have hnone : fs.find? (fun x => x.1 = p) = Option.none := by
      unfold fsExists fsLookup at h
      cases hf : fs.find? (fun x => x.1 = p) with
      | none => rfl
      | some q => rw [hf] at h; simp at h
    unfold fsSet
    rw [if_neg h]
    unfold fsLookup
    rw [find?_append_none _ _ _ hnone, List.find?_cons_of_pos _ (by simp)]

theorem xattrGet_xattrSet_self (xs : List (String × String)) (k v : String) :
    xattrGet (xattrSet xs k v) k = Option.some v := by
  by_cases h : xs.any (fun e => e.1 = k)
  · unfold xattrSet
    rw [if_pos h]
    unfold xattrGet
    rw [mapReplace_find?, if_pos h]
  · have hfalse : xs.any (fun e => e.1 = k) = false := Bool.eq_false_iff.mpr h
    have hnone : xs.find? (fun e => e.1 = k) = Option.none := by
      rw [List.find?_eq_none]
      intro x hx
      exact List.any_eq_false.mp hfalse x hx
    unfold xattrSet
    rw [if_neg h]
    unfold xattrGet
    rw [find?_append_none _ _ _ hnone, List.find?_cons_of_pos _ (by simp)]

/-- C8, counterexample: the encoding joins namespace and local name with
`#`, but the decoder splits at the FIRST `#` of the stored attribute
name, so a namespace href that itself contains `#` — such as the RDF
namespace `http://www.w3.org/1999/02/22-rdf-syntax-ns#` — does not
survive the round trip: `rdf:type` decodes to namespace
`http://www.w3.org/1999/02/22-rdf-syntax-ns` and local name `#type`. -/
theorem c8_hash_ns_not_roundtrip :
    prop_xattr_name
        (xml_node_get_xattr_name
          ⟨Option.some "http://www.w3.org/1999/02/22-rdf-syntax-ns#", "type"⟩ "xattr::")
      = ⟨Option.some "http://www.w3.org/1999/02/22-rdf-syntax-ns", "#type"⟩
    ∧ (⟨Option.some "http://www.w3.org/1999/02/22-rdf-syntax-ns", "#type"⟩ : XmlName)
      ≠ ⟨Option.some "http://www.w3.org/1999/02/22-rdf-syntax-ns#", "type"⟩ := by
  constructor
  · decide
  · decide

/-- C8 (amended): a property with namespace `ns` and local name `n` is
stored under the extended-attribute name `xattr::<ns>#<n>` (and
`xattr::<n>` without a namespace), and — PROVIDED the namespace href
contains no `#` (respectively, for the namespace-less form, the local
name contains no `#`) — decoding the attribute name recovers the same
(namespace, local-name) pair; and a PROPPATCH `set` of a dead property
on an existing resource followed by a PROPFIND `prop` of the same name
returns the stored value with status `200`. -/
theorem c8_dead_property_roundtrip :
    (∀ (n : XmlName) (u : String), n.ns = Option.some u → '#' ∉ u.data →
       prop_xattr_name (xml_node_get_xattr_name n "xattr::") = n)
    ∧ (∀ (n : XmlName), n.ns = Option.none → '#' ∉ n.name.data →
       prop_xattr_name (xml_node_get_xattr_name n "xattr::") = n)
    ∧ (∀ (fs : FS) (path : String) (n : XmlName) (v : String) (ent : Ent),
       fsLookup fs path = Option.some ent →
       ¬ (n.ns = Option.some "DAV:" ∧ n.name ∈ prop_list_names) →
       ∃ fs', prop_set_xattr fs path n v = (200, fs')
            ∧ propfind_prop_one fs' path n = (200, Option.some v)) := by
  refine ⟨?_, ?_, ?_⟩
  · intro n u hns hno
    obtain ⟨ns, name⟩ := n
    dsimp only at hns
    subst hns
    have hdata : (xml_node_get_xattr_name ⟨Option.some u, name⟩ "xattr::").data
        = "xattr::".data ++ (u.data ++ '#' :: name.data) := by
      unfold xml_node_get_xattr_name
      dsimp only
      simp only [String.data_append, List.append_assoc]
      rfl
    unfold prop_xattr_name
    rw [hdata]
    dsimp only
    have hdrop : ("xattr::".data ++ (u.data ++ '#' :: name.data)).drop 7
        = u.data ++ '#' :: name.data := rfl
    rw [hdrop, splitAtChar_append '#' u.data name.data hno]
  · intro n hns hno
    obtain ⟨ns, name⟩ := n
    dsimp only at hns hno
    subst hns
    have hdata : (xml_node_get_xattr_name ⟨Option.none, name⟩ "xattr::").data
        = "xattr::".data ++ name.data := by
      unfold xml_node_get_xattr_name
      dsimp only
      simp only [String.data_append]
    unfold prop_xattr_name
    rw [hdata]
    dsimp only
    have hdrop : ("xattr::".data ++ name.data).drop 7 = name.data := rfl
    rw [hdrop, splitAtChar_none '#' name.data hno]
  · intro fs path n v ent hlook hnl
    refine ⟨fsSet fs path
      { ent with xattrs :=
          xattrSet ent.xattrs (xml_node_get_xattr_name n "xattr::") v }, ?_, ?_⟩
    · unfold prop_set_xattr
      rw [hlook]
    · unfold propfind_prop_one
      rw [if_neg hnl, fsLookup_fsSet_self]
      dsimp only
      rw [xattrGet_xattrSet_self]

/-- C8, witness: the round trip at concrete inputs — the hash-free
namespace `urn:x` with name `foo` decodes back to itself, and storing
`value` under it on file `/f` then reading it back yields
`(200, value)`. -/
theorem c8_dead_property_roundtrip_witness :
    prop_xattr_name (xml_node_get_xattr_name ⟨Option.some "urn:x", "foo"⟩ "xattr::")
      = ⟨Option.some "urn:x", "foo"⟩
    ∧ ∃ fs', prop_set_xattr [("/f", ⟨false, []⟩)] "/f" ⟨Option.some "urn:x", "foo"⟩ "value"
          = (200, fs')
        ∧ propfind_prop_one fs' "/f" ⟨Option.some "urn:x", "foo"⟩
          = (200, Option.some "value") :=
  ⟨c8_dead_property_roundtrip.1 ⟨Option.some "urn:x", "foo"⟩ "urn:x" rfl (by decide),
   c8_dead_property_roundtrip.2.2 [("/f", ⟨false, []⟩)] "/f" ⟨Option.some "urn:x", "foo"⟩
     "value" ⟨false, []⟩ (by decide) (by decide)⟩

/-! ## Claim C9 — multiplexer framing and half-close -/

theorem leBytes_length (k n : Nat) : (leBytes k n).length = k := by
  induction k generalizing n with
  | zero => rfl
  | succ k ih => simp [leBytes, ih]

theorem fromLE_leBytes (k n : Nat) (h : n < 2 ^ (8 * k)) :
    fromLE (leBytes k n) = n := by
  induction k generalizing n with
  | zero =>
    have h1 : n < 1 := by simpa using h
    simp [leBytes, fromLE, Nat.lt_one_iff.mp h1]
  | succ k ih =>
    have hd : n / 256 < 2 ^ (8 * k) := by
      rw [Nat.div_lt_iff_lt_mul (by norm_num : 0 < 256)]
      calc n < 2 ^ (8 * (k + 1)) := h
        _ = 2 ^ (8 * k) * 256 := by rw [Nat.mul_succ, Nat.pow_add]
    simp [leBytes, fromLE, ih (n / 256) hd, Nat.mod_add_div]

theorem decodeFrame_client_frame (id : Nat) (payload rest : List Nat)
    (hid : id < 2 ^ 64) (hlen : payload.length ≤ 65535) :
    decodeFrame (client_frame id payload ++ rest)
      = Option.some (id, payload, rest) := by
  have h8 : (leBytes 8 id).length = 8 := leBytes_length 8 id
  have h2 : (leBytes 2 payload.length).length = 2 := leBytes_length 2 payload.length
  unfold client_frame decodeFrame
  rw [List.append_assoc, List.append_assoc]
  have hlen10 :
      ¬ ((leBytes 8 id ++ (leBytes 2 payload.length ++ (payload ++ rest))).length < 10) := by
    rw [List.length_append, List.length_append, List.length_append, h8, h2]
    omega
  rw [if_neg hlen10]
  dsimp only
  have hdrop8 : (leBytes 8 id ++ (leBytes 2 payload.length ++ (payload ++ rest))).drop 8
      = leBytes 2 payload.length ++ (payload ++ rest) := List.drop_left' h8
  have hdrop10 : (leBytes 8 id ++ (leBytes 2 payload.length ++ (payload ++ rest))).drop 10
      = payload ++ rest := by
    rw [show (10 : Nat) = 8 + 2 from rfl, ← List.drop_drop, hdrop8, List.drop_left' h2]
  rw [List.take_left' h8, hdrop8, List.take_left' h2, hdrop10]
  rw [fromLE_leBytes 8 id (by simpa using hid),
    fromLE_leBytes 2 payload.length (by norm_num; omega)]
  rw [if_neg (by rw [List.length_append]; omega)]
  rw [List.take_left, List.drop_left]

/-- C9, counterexample: the RECEIVER of a zero-size frame does not free
the local session — `mux_data_read_cb` looks the client up and pushes the
(empty) payload onto its queue, leaving the session table unchanged; the
step the spec demands would instead remove the session. -/
theorem c9_receiver_keeps_session :
    mux_data_read_cb [(1, [])] 1 [] = [(1, [[]])]
    ∧ specMuxReceiverStep [(1, [])] 1 [] = []
    ∧ clientsLookup [(1, [])] 1 ≠ Option.none := by
  refine ⟨by decide, by decide, by decide⟩

/-- C9 (amended): every outbound unit for a client is emitted as the
little-endian frame `client_id (u64) | size (u16) | payload` — for any id
below `2^64` and payload of at most `65535` bytes (the reader never asks
the local socket for more), decoding the strictly serialized reads off a
transport holding the frame recovers exactly the id, the payload and the
trailing bytes.  A frame with `size = 0` denotes local half-close, and it
is the SENDER that frees its client after the zero-size frame is pushed
(`mux_pushed_cb`); the receiver of a frame only delivers the payload to
the session's queue when the session exists (dropping it otherwise) and
never alters its session table — in particular it does NOT free the
session on a zero-size frame. -/
theorem c9_mux_framing :
    (∀ (id : Nat) (payload rest : List Nat),
       id < 2 ^ 64 → payload.length ≤ 65535 →
       decodeFrame (client_frame id payload ++ rest) = Option.some (id, payload, rest))
    ∧ (∀ (cls : Clients) (id : Nat), mux_pushed_cb cls id 0 = remove_client cls id)
    ∧ (∀ (cls : Clients) (id size : Nat), size ≠ 0 → mux_pushed_cb cls id size = cls)
    ∧ (∀ (cls : Clients) (cid : Nat) (payload : List Nat),
       clientsLookup cls cid = Option.none → mux_data_read_cb cls cid payload = cls)
    ∧ (∀ (cls : Clients) (cid : Nat) (payload : List Nat) (q : List (List Nat)),
       clientsLookup cls cid = Option.some q →
       mux_data_read_cb cls cid payload
         = cls.map (fun e => if e.1 = cid then (e.1, e.2 ++ [payload]) else e)) := by
  refine ⟨decodeFrame_client_frame, ?_, ?_, ?_, ?_⟩
  · intro cls id
    rfl
  · intro cls id size hs
    unfold mux_pushed_cb
    rw [if_neg hs]
  · intro cls cid payload hnone
    unfold mux_data_read_cb
    rw [hnone]
  · intro cls cid payload q hsome
    unfold mux_data_read_cb
    rw [hsome]

/-- C9, witness: the frame for client `3` with payload `[7, 8]` decodes
back to `(3, [7, 8])` leaving the next frame's bytes untouched, the
sender frees client `3` of its table after pushing a zero-size frame, a
nonzero push keeps it, and the receiver delivers a payload to the
matching session. -/
theorem c9_mux_framing_witness :
    decodeFrame (client_frame 3 [7, 8] ++ [9]) = Option.some (3, [7, 8], [9])
    ∧ mux_pushed_cb [(3, [])] 3 0 = []
    ∧ mux_pushed_cb [(3, [])] 3 2 = [(3, [])]
    ∧ mux_data_read_cb [(3, [])] 3 [7, 8] = [(3, [[7, 8]])] :=
  ⟨c9_mux_framing.1 3 [7, 8] [9] (by norm_num) (by decide),
   c9_mux_framing.2.1 [(3, [])] 3,
   c9_mux_framing.2.2.1 [(3, [])] 3 2 (by decide),
   by
     rw [c9_mux_framing.2.2.2.2 [(3, [])] 3 [7, 8] [] (by decide)]
     decide⟩

end Phodav
